import Mathlib

/-!
Verification development for the OLMS repository's catalog generator
(`scripts/generate_program_listing.py`) and its companion find/replace
utility (`tmp_replace.py`).

Texts are modelled as `List Char`; relative paths as lists of path
components (`List (List Char)`).  Python string primitives used by the
source (`str.replace`, `str.splitlines`, `str.rstrip`, `str.strip`,
`str.lower`, substring tests, `"sep".join`) are embedded as executable
Lean functions below, and the two scripts' functions are transliterated
on top of them.
-/

set_option maxRecDepth 4000

namespace OLMS

/-- Shorthand: the character list of a string literal. -/
def toL (s : String) : List Char := s.data

/-- Python whitespace (`str.isspace`, and `\s` of the `re` module):
the ASCII whitespace characters together with the Unicode whitespace
code points. -/
def isPySpace (c : Char) : Bool :=
  c ∈ ([' ', '\t', '\n', '\r', '\x0b', '\x0c',
        '\x1c', '\x1d', '\x1e', '\x1f', '\u0085', '\u00a0',
        '\u1680', '\u2000', '\u2001', '\u2002', '\u2003', '\u2004',
        '\u2005', '\u2006', '\u2007', '\u2008', '\u2009', '\u200a',
        '\u2028', '\u2029', '\u202f', '\u205f', '\u3000'] : List Char)

/-- The line-boundary characters recognized by Python's
`str.splitlines` (besides the two-character boundary `"\r\n"`). -/
def isLineBreak (c : Char) : Bool :=
  c ∈ (['\n', '\r', '\x0b', '\x0c', '\x1c', '\x1d', '\x1e',
        '\u0085', '\u2028', '\u2029'] : List Char)

theorem isLineBreak_isPySpace {c : Char} (h : isLineBreak c = true) :
    isPySpace c = true := by
  simp only [isLineBreak, List.mem_cons, List.not_mem_nil, or_false,
    decide_eq_true_eq] at h
  simp only [isPySpace, List.mem_cons, List.not_mem_nil, or_false,
    decide_eq_true_eq]
  rcases h with h | h | h | h | h | h | h | h | h | h <;> subst h <;> tauto

/-- Lexicographic comparison of character lists by code point; this is
how Python compares strings (`sorted` without a key). -/
def lexLe : List Char → List Char → Bool
  | [], _ => true
  | _ :: _, [] => false
  | c :: cs, d :: ds => if c = d then lexLe cs ds else decide (c < d)

theorem lexLe_total : ∀ a b : List Char, lexLe a b = true ∨ lexLe b a = true
  | [], _ => Or.inl rfl
  | _ :: _, [] => Or.inr rfl
  | c :: cs, d :: ds => by
    by_cases h : c = d
    · subst h
      have := lexLe_total cs ds
      simpa [lexLe] using this
    · have hne : ¬ d = c := fun hh => h hh.symm
      rcases lt_trichotomy c d with hlt | heq | hgt
      · left; simp [lexLe, h, hlt]
      · exact absurd heq h
      · right; simp [lexLe, hne, hgt]

theorem lexLe_trans : ∀ a b c : List Char,
    lexLe a b = true → lexLe b c = true → lexLe a c = true
  | [], _, _, _, _ => rfl
  | _ :: _, [], _, h, _ => by simp [lexLe] at h
  | _ :: _, _ :: _, [], _, h => by simp [lexLe] at h
  | a :: as, b :: bs, c :: cs, hab, hbc => by
    by_cases h1 : a = b <;> by_cases h2 : b = c
    · subst h1; subst h2
      simp only [lexLe, if_pos rfl] at hab hbc ⊢
      exact lexLe_trans as bs cs hab hbc
    · subst h1
      simpa [lexLe, h2] using hbc
    · subst h2
      simpa [lexLe, h1] using hab
    · simp only [lexLe, if_neg h1, decide_eq_true_eq] at hab
      simp only [lexLe, if_neg h2, decide_eq_true_eq] at hbc
      have hac : a < c := lt_trans hab hbc
      have hne : ¬ a = c := ne_of_lt hac
      simp [lexLe, hne, hac]

/-- `occursIn b s` is Python's substring test `b in s`. -/
def occursIn (b s : List Char) : Bool := s.tails.any (b.isPrefixOf ·)

theorem occursIn_iff {b s : List Char} :
    occursIn b s = true ↔ ∃ l r, s = l ++ b ++ r := by
  constructor
  · intro h
    simp only [occursIn, List.any_eq_true] at h
    obtain ⟨t, ht, hp⟩ := h
    rw [List.mem_tails] at ht
    obtain ⟨l, hl⟩ := ht
    obtain ⟨r, hr⟩ := List.isPrefixOf_iff_prefix.mp hp
    exact ⟨l, r, by rw [← hl, ← hr, List.append_assoc]⟩
  · rintro ⟨l, r, rfl⟩
    simp only [occursIn, List.any_eq_true]
    refine ⟨b ++ r, ?_, ?_⟩
    · rw [List.mem_tails, List.append_assoc]
      exact ⟨l, rfl⟩
    · exact List.isPrefixOf_iff_prefix.mpr ⟨r, rfl⟩

theorem occursIn_mono {b s t : List Char} (hsub : t <:+: s)
    (h : occursIn b t = true) : occursIn b s = true := by
  rw [occursIn_iff] at h ⊢
  obtain ⟨l, r, rfl⟩ := h
  obtain ⟨u, v, rfl⟩ := hsub
  exact ⟨u ++ l, r ++ v, by simp⟩

theorem not_occursIn_mono {b s t : List Char} (hsub : t <:+: s)
    (h : occursIn b s = false) : occursIn b t = false := by
  by_contra hc
  rw [Bool.not_eq_false] at hc
  rw [occursIn_mono hsub hc] at h
  simp at h

theorem occursIn_nil_right {b : List Char} (hb : b ≠ []) :
    occursIn b [] = false := by
  cases b with
  | nil => exact absurd rfl hb
  | cons c cs => rfl

/-- Python's `"sep".join(parts)`. -/
def joinWith (sep : List Char) : List (List Char) → List Char
  | [] => []
  | [p] => p
  | p :: q :: ps => p ++ sep ++ joinWith sep (q :: ps)

theorem joinWith_cons (sep p : List Char) (q : List Char) (ps : List (List Char)) :
    joinWith sep (p :: q :: ps) = p ++ sep ++ joinWith sep (q :: ps) := rfl

/-- Strong induction on the length of a character list. -/
theorem lengthInd {P : List Char → Prop}
    (h : ∀ s, (∀ t : List Char, t.length < s.length → P t) → P s) :
    ∀ s, P s :=
  fun s => h s (fun t ht => lengthInd h t)
termination_by s => s.length
decreasing_by exact ht

/-- Prepend a character to the first piece of a split. -/
def consHead (c : Char) : List (List Char) → List (List Char)
  | [] => [[c]]
  | p :: ps => (c :: p) :: ps

theorem joinWith_consHead (sep : List Char) (c : Char) :
    ∀ parts, joinWith sep (consHead c parts) = c :: joinWith sep parts
  | [] => rfl
  | [_] => rfl
  | _ :: _ :: _ => rfl

/-- Python's `s.split(old)` for a nonempty separator: leftmost,
non-overlapping occurrences of `old` cut the string. -/
def splitOnL (old : List Char) (s : List Char) : List (List Char) :=
  if h : old ≠ [] ∧ old.isPrefixOf s then
    [] :: splitOnL old (s.drop old.length)
  else
    match s with
    | [] => [[]]
    | c :: rest => consHead c (splitOnL old rest)
termination_by s.length
decreasing_by
· have hp := List.isPrefixOf_iff_prefix.mp h.2
  have hl := hp.length_le
  have ho : 0 < old.length := List.length_pos.mpr h.1
  simp only [List.length_drop]
  omega
· simp

theorem splitOnL_pos {old s : List Char} (h1 : old ≠ []) (h2 : old.isPrefixOf s = true) :
    splitOnL old s = [] :: splitOnL old (s.drop old.length) := by
  rw [splitOnL]
  simp [h1, h2]

theorem splitOnL_nil (old : List Char) : splitOnL old [] = [[]] := by
  rw [splitOnL]
  by_cases h : old = []
  · subst h; simp
  · have : old.isPrefixOf ([] : List Char) = false := by
      cases old with
      | nil => exact absurd rfl h
      | cons c cs => rfl
    simp [h, this]

theorem splitOnL_neg {old : List Char} (c : Char) (rest : List Char)
    (h : ¬ (old ≠ [] ∧ old.isPrefixOf (c :: rest) = true)) :
    splitOnL old (c :: rest) = consHead c (splitOnL old rest) := by
  rw [splitOnL, dif_neg h]

theorem splitOnL_ne_nil (old : List Char) : ∀ s, splitOnL old s ≠ [] := by
  refine lengthInd (fun s ih => ?_)
  by_cases h : old ≠ [] ∧ old.isPrefixOf s = true
  · rw [splitOnL_pos h.1 h.2]; exact List.cons_ne_nil _ _
  · match s with
    | [] => rw [splitOnL_nil]; exact List.cons_ne_nil _ _
    | c :: rest =>
      rw [splitOnL_neg c rest h]
      cases splitOnL old rest with
      | nil => exact List.cons_ne_nil _ _
      | cons p ps => exact List.cons_ne_nil _ _

/-- The first piece of a split is a prefix of the input. -/
theorem splitOnL_head_prefix {old : List Char} :
    ∀ s p ps, splitOnL old s = p :: ps → p <+: s := by
  refine lengthInd (fun s ih p ps heq => ?_)
  by_cases h : old ≠ [] ∧ old.isPrefixOf s = true
  · rw [splitOnL_pos h.1 h.2] at heq
    cases heq
    exact List.nil_prefix
  · match s with
    | [] =>
      rw [splitOnL_nil] at heq
      cases heq
      exact List.nil_prefix
    | c :: rest =>
      rw [splitOnL_neg c rest h] at heq
      cases hq : splitOnL old rest with
      | nil => exact absurd hq (splitOnL_ne_nil old rest)
      | cons q qs =>
        rw [hq] at heq
        simp only [consHead] at heq
        have hinj := List.cons_eq_cons.mp heq
        have hqr : q <+: rest := ih rest (by simp) q qs hq
        obtain ⟨t, ht⟩ := hqr
        rw [← hinj.1]
        exact ⟨t, by rw [List.cons_append, ht]⟩

/-- Rebuilding: joining the split pieces with the separator recovers the
input (`old.join(s.split(old)) == s`). -/
theorem joinWith_splitOnL (old : List Char) :
    ∀ s, joinWith old (splitOnL old s) = s := by
  refine lengthInd (fun s ih => ?_)
  by_cases h : old ≠ [] ∧ old.isPrefixOf s = true
  · rw [splitOnL_pos h.1 h.2]
    have hp := List.isPrefixOf_iff_prefix.mp h.2
    have ho : 0 < old.length := List.length_pos.mpr h.1
    have hlt : (s.drop old.length).length < s.length := by
      have := hp.length_le
      simp only [List.length_drop]
      omega
    have ihd := ih (s.drop old.length) hlt
    cases hq : splitOnL old (s.drop old.length) with
    | nil => exact absurd hq (splitOnL_ne_nil old _)
    | cons q qs =>
      rw [hq] at ihd
      rw [joinWith_cons, List.nil_append, ihd]
      obtain ⟨t, ht⟩ := hp
      rw [← ht, List.drop_left]
  · match s with
    | [] => rw [splitOnL_nil]; rfl
    | c :: rest =>
      rw [splitOnL_neg c rest h, joinWith_consHead]
      rw [ih rest (by simp)]

/-- No piece of the split contains the separator. -/
theorem splitOnL_no_occurrence {old : List Char} (hold : old ≠ []) :
    ∀ s, ∀ p ∈ splitOnL old s, occursIn old p = false := by
  refine lengthInd (fun s ih p hp => ?_)
  by_cases h : old ≠ [] ∧ old.isPrefixOf s = true
  · rw [splitOnL_pos h.1 h.2] at hp
    rcases List.mem_cons.mp hp with rfl | hp
    · exact occursIn_nil_right hold
    · have hp2 := List.isPrefixOf_iff_prefix.mp h.2
      have ho : 0 < old.length := List.length_pos.mpr hold
      have hlt : (s.drop old.length).length < s.length := by
        have := hp2.length_le
        simp only [List.length_drop]
        omega
      exact ih (s.drop old.length) hlt p hp
  · match s with
    | [] =>
      rw [splitOnL_nil] at hp
      rcases List.mem_cons.mp hp with rfl | hp
      · exact occursIn_nil_right hold
      · exact absurd hp (List.not_mem_nil p)
    | c :: rest =>
      rw [splitOnL_neg c rest h] at hp
      cases hq : splitOnL old rest with
      | nil => exact absurd hq (splitOnL_ne_nil old rest)
      | cons q qs =>
        rw [hq] at hp
        simp only [consHead] at hp
        rcases List.mem_cons.mp hp with rfl | hp
        · by_contra hc
          rw [Bool.not_eq_false, occursIn_iff] at hc
          obtain ⟨l, r, hlr⟩ := hc
          cases l with
          | nil =>
            have hpre : old <+: c :: q := ⟨r, by simpa using hlr.symm⟩
            have hq2 : q <+: rest := splitOnL_head_prefix rest q qs hq
            obtain ⟨t, ht⟩ := hq2
            have : old <+: c :: rest := hpre.trans ⟨t, by rw [List.cons_append, ht]⟩
            exact h ⟨hold, List.isPrefixOf_iff_prefix.mpr this⟩
          | cons x l =>
            have hql : q = l ++ old ++ r := by
              have h2 : c = x ∧ q = l ++ (old ++ r) := by simpa using hlr
              rw [h2.2, List.append_assoc]
            have : occursIn old q = true := occursIn_iff.mpr ⟨l, r, hql⟩
            have hqm : q ∈ splitOnL old rest := hq ▸ List.mem_cons_self q qs
            rw [ih rest (by simp) q hqm] at this
            simp at this
        · exact ih rest (by simp) p (hq ▸ List.mem_cons_of_mem q hp)

/-- Every piece of the split is a contiguous substring of the input. -/
theorem splitOnL_infixOf {old : List Char} :
    ∀ s, ∀ p ∈ splitOnL old s, p <:+: s := by
  refine lengthInd (fun s ih p hp => ?_)
  by_cases h : old ≠ [] ∧ old.isPrefixOf s = true
  · rw [splitOnL_pos h.1 h.2] at hp
    rcases List.mem_cons.mp hp with rfl | hp
    · exact List.nil_infix
    · have hp2 := List.isPrefixOf_iff_prefix.mp h.2
      have ho : 0 < old.length := List.length_pos.mpr h.1
      have hlt : (s.drop old.length).length < s.length := by
        have := hp2.length_le
        simp only [List.length_drop]
        omega
      exact (ih (s.drop old.length) hlt p hp).trans
        (List.drop_suffix old.length s).isInfix
  · match s with
    | [] =>
      rw [splitOnL_nil] at hp
      rcases List.mem_cons.mp hp with rfl | hp
      · exact List.nil_infix
      · exact absurd hp (List.not_mem_nil p)
    | c :: rest =>
      rw [splitOnL_neg c rest h] at hp
      cases hq : splitOnL old rest with
      | nil => exact absurd hq (splitOnL_ne_nil old rest)
      | cons q qs =>
        rw [hq] at hp
        simp only [consHead] at hp
        rcases List.mem_cons.mp hp with rfl | hp
        · have hq2 : q <+: rest := splitOnL_head_prefix rest q qs hq
          obtain ⟨t, ht⟩ := hq2
          have hpre : (c :: q) <+: (c :: rest) := ⟨t, by rw [List.cons_append, ht]⟩
          exact hpre.isInfix
        · exact ((ih rest (by simp) p (hq ▸ List.mem_cons_of_mem q hp)).trans
            (List.suffix_cons c rest).isInfix)

/-- Python's `str.replace(old, new)` for a nonempty `old`, with a fuel
counter for structural recursion: replace the leftmost occurrence of
`old` and continue scanning after the inserted text (non-overlapping,
left to right).  Every step consumes at least one input character, so
fuel `s.length` never runs out. -/
def replApplyF (old new : List Char) : Nat → List Char → List Char
  | 0, s => s
  | fuel + 1, s =>
    if old ≠ [] ∧ old.isPrefixOf s then
      new ++ replApplyF old new fuel (s.drop old.length)
    else
      match s with
      | [] => []
      | c :: rest => c :: replApplyF old new fuel rest

def replApply (old new s : List Char) : List Char :=
  replApplyF old new s.length s

theorem replApplyF_succ (old new : List Char) (fuel : Nat) (s : List Char) :
    replApplyF old new (fuel + 1) s =
      if old ≠ [] ∧ old.isPrefixOf s = true then
        new ++ replApplyF old new fuel (s.drop old.length)
      else
        match s with
        | [] => []
        | c :: rest => c :: replApplyF old new fuel rest := rfl

theorem replApplyF_nil (old new : List Char) :
    ∀ fuel, replApplyF old new fuel [] = [] := by
  intro fuel
  cases fuel with
  | zero => rfl
  | succ f =>
    rw [replApplyF_succ]
    have hcond : ¬ (old ≠ [] ∧ old.isPrefixOf ([] : List Char) = true) := by
      rintro ⟨h1, h2⟩
      cases old with
      | nil => exact h1 rfl
      | cons c cs => simp at h2
    rw [if_neg hcond]

theorem replApplyF_irrel {old new : List Char} :
    ∀ (f1 f2 : Nat) (s : List Char), s.length ≤ f1 → s.length ≤ f2 →
      replApplyF old new f1 s = replApplyF old new f2 s
  | 0, f2, s, h1, _ => by
    have hs : s = [] := List.length_eq_zero.mp (Nat.le_zero.mp h1)
    subst hs
    rw [replApplyF_nil, replApplyF_nil]
  | f1 + 1, 0, s, _, h2 => by
    have hs : s = [] := List.length_eq_zero.mp (Nat.le_zero.mp h2)
    subst hs
    rw [replApplyF_nil, replApplyF_nil]
  | f1 + 1, f2 + 1, s, h1, h2 => by
    rw [replApplyF_succ, replApplyF_succ]
    by_cases h : old ≠ [] ∧ old.isPrefixOf s = true
    · rw [if_pos h, if_pos h]
      have hol : 0 < old.length := List.length_pos.mpr h.1
      have hd : (s.drop old.length).length ≤ f1 := by
        simp only [List.length_drop]
        omega
      have hd2 : (s.drop old.length).length ≤ f2 := by
        simp only [List.length_drop]
        omega
      rw [replApplyF_irrel f1 f2 _ hd hd2]
    · rw [if_neg h, if_neg h]
      cases s with
      | nil => rfl
      | cons c rest =>
        have hr1 : rest.length ≤ f1 := by
          simp only [List.length_cons] at h1
          omega
        have hr2 : rest.length ≤ f2 := by
          simp only [List.length_cons] at h2
          omega
        show c :: replApplyF old new f1 rest = c :: replApplyF old new f2 rest
        rw [replApplyF_irrel f1 f2 rest hr1 hr2]

theorem replApply_pos {old new s : List Char} (h1 : old ≠ [])
    (h2 : old.isPrefixOf s = true) :
    replApply old new s = new ++ replApply old new (s.drop old.length) := by
  have hol : 0 < old.length := List.length_pos.mpr h1
  have hsl : old.length ≤ s.length :=
    (List.isPrefixOf_iff_prefix.mp h2).length_le
  cases hs : s with
  | nil =>
    subst hs
    cases old with
    | nil => exact absurd rfl h1
    | cons c cs => simp at h2
  | cons c rest =>
    subst hs
    show replApplyF old new (rest.length + 1) (c :: rest) = _
    rw [replApplyF_succ, if_pos ⟨h1, h2⟩]
    congr 1
    apply replApplyF_irrel
    · simp only [List.length_drop, List.length_cons]
      omega
    · exact Nat.le_refl _

theorem replApply_nil (old new : List Char) : replApply old new [] = [] := rfl

theorem replApply_neg {old new : List Char} (c : Char) (rest : List Char)
    (h : ¬ (old ≠ [] ∧ old.isPrefixOf (c :: rest) = true)) :
    replApply old new (c :: rest) = c :: replApply old new rest := by
  show replApplyF old new (rest.length + 1) (c :: rest) = _
  rw [replApplyF_succ, if_neg h]
  rfl

/-- `str.replace` is "join the split pieces with the replacement":
`s.replace(old, new) == new.join(s.split(old))`. -/
theorem replApply_eq_joinWith {old new : List Char} (hold : old ≠ []) :
    ∀ s, replApply old new s = joinWith new (splitOnL old s) := by
  refine lengthInd (fun s ih => ?_)
  by_cases h : old ≠ [] ∧ old.isPrefixOf s = true
  · rw [replApply_pos h.1 h.2, splitOnL_pos h.1 h.2]
    have hp := List.isPrefixOf_iff_prefix.mp h.2
    have ho : 0 < old.length := List.length_pos.mpr h.1
    have hlt : (s.drop old.length).length < s.length := by
      have := hp.length_le
      simp only [List.length_drop]
      omega
    cases hq : splitOnL old (s.drop old.length) with
    | nil => exact absurd hq (splitOnL_ne_nil old _)
    | cons q qs =>
      rw [joinWith_cons, List.nil_append, ← hq, ← ih (s.drop old.length) hlt]
  · match s with
    | [] => rw [replApply_nil, splitOnL_nil]; rfl
    | c :: rest =>
      rw [replApply_neg c rest h, splitOnL_neg c rest h, joinWith_consHead,
        ih rest (by simp)]

theorem occursIn_cons_of {b : List Char} (c : Char) {rest : List Char}
    (h : occursIn b rest = true) : occursIn b (c :: rest) = true :=
  occursIn_mono (List.suffix_cons c rest).isInfix h

/-- If the pattern does not occur, `str.replace` is the identity. -/
theorem replApply_of_not_occursIn {old new : List Char} (hold : old ≠ []) :
    ∀ s, occursIn old s = false → replApply old new s = s := by
  refine lengthInd (fun s ih hno => ?_)
  by_cases h : old ≠ [] ∧ old.isPrefixOf s = true
  · exfalso
    obtain ⟨t, ht⟩ := List.isPrefixOf_iff_prefix.mp h.2
    have : occursIn old s = true := occursIn_iff.mpr ⟨[], t, by rw [← ht]; rfl⟩
    rw [hno] at this
    simp at this
  · match s with
    | [] => exact replApply_nil old new
    | c :: rest =>
      rw [replApply_neg c rest h]
      have hrest : occursIn old rest = false := by
        by_contra hc
        rw [Bool.not_eq_false] at hc
        rw [occursIn_cons_of c hc] at hno
        simp at hno
      rw [ih rest (by simp) hrest]

/-- Python's `str.replace(old, new)` (the empty pattern interleaves
`new` around every character, as Python does). -/
def pyReplace (old new s : List Char) : List Char :=
  if old = [] then new ++ s.foldr (fun c acc => c :: (new ++ acc)) []
  else replApply old new s

theorem pyReplace_eq_replApply {old : List Char} (new s : List Char)
    (h : old ≠ []) : pyReplace old new s = replApply old new s := if_neg h

/-- An occurrence in an appended list lies in the left part, in the
right part, or spans the boundary. -/
theorem occursIn_iff_drop {b s : List Char} :
    occursIn b s = true ↔ ∃ i, b <+: s.drop i := by
  constructor
  · intro h
    simp only [occursIn, List.any_eq_true] at h
    obtain ⟨t, ht, hp⟩ := h
    rw [List.mem_tails] at ht
    rw [List.suffix_iff_eq_drop] at ht
    exact ⟨s.length - t.length, ht ▸ List.isPrefixOf_iff_prefix.mp hp⟩
  · rintro ⟨i, hp⟩
    simp only [occursIn, List.any_eq_true]
    exact ⟨s.drop i, (List.mem_tails _ _).mpr (List.drop_suffix i s),
      List.isPrefixOf_iff_prefix.mpr hp⟩

theorem prefix_append_le {w u v : List Char} (h : w <+: u ++ v)
    (hl : w.length ≤ u.length) : w <+: u := by
  have heq := List.prefix_iff_eq_take.mp h
  rw [List.take_append_eq_append_take, Nat.sub_eq_zero_of_le hl,
    List.take_zero, List.append_nil] at heq
  exact heq ▸ List.take_prefix _ _

theorem prefix_append_gt {b u v : List Char} (h : b <+: u ++ v)
    (hl : u.length < b.length) :
    b.take u.length = u ∧ b.drop u.length <+: v := by
  obtain ⟨w, hw⟩ := h
  constructor
  · have htk := congrArg (List.take u.length) hw
    rw [List.take_append_eq_append_take, List.take_append_eq_append_take,
      Nat.sub_eq_zero_of_le (Nat.le_of_lt hl), List.take_zero,
      List.append_nil, Nat.sub_self, List.take_zero, List.append_nil,
      List.take_length] at htk
    exact htk
  · have hdp := congrArg (List.drop u.length) hw
    rw [List.drop_append_eq_append_drop, List.drop_append_eq_append_drop,
      Nat.sub_eq_zero_of_le (Nat.le_of_lt hl), List.drop_zero,
      Nat.sub_self, List.drop_zero, List.drop_length, List.nil_append] at hdp
    exact ⟨w, hdp⟩

theorem occursIn_append_cases {x y b : List Char}
    (h : occursIn b (x ++ y) = true) :
    occursIn b x = true ∨ occursIn b y = true ∨
      ∃ i, 1 ≤ i ∧ i < b.length ∧ b.take i <:+ x ∧ b.drop i <+: y := by
  rw [occursIn_iff_drop] at h
  obtain ⟨i, hp⟩ := h
  by_cases hix : x.length ≤ i
  · right; left
    rw [occursIn_iff_drop]
    refine ⟨i - x.length, ?_⟩
    rwa [List.drop_append_eq_append_drop, List.drop_eq_nil_iff.mpr hix,
      List.nil_append] at hp
  · push_neg at hix
    rw [List.drop_append_eq_append_drop, Nat.sub_eq_zero_of_le
      (Nat.le_of_lt hix), List.drop_zero] at hp
    by_cases hbl : b.length ≤ (x.drop i).length
    · left
      rw [occursIn_iff_drop]
      exact ⟨i, prefix_append_le hp hbl⟩
    · push_neg at hbl
      have h2 := prefix_append_gt hp hbl
      right; right
      refine ⟨(x.drop i).length, ?_, hbl, ?_, h2.2⟩
      · simp only [List.length_drop]
        omega
      · rw [h2.1]
        exact List.drop_suffix i x

/-- An occurrence in `sep.join(parts)` lies inside a piece, inside a
copy of `sep`, or touches a boundary of a copy of `sep`. -/
theorem occursIn_joinWith_cases {sep b : List Char} (hb : b ≠ [])
    (hlen : b.length ≤ sep.length) :
    ∀ parts : List (List Char),
      occursIn b (joinWith sep parts) = true →
      (∃ p ∈ parts, occursIn b p = true) ∨ occursIn b sep = true ∨
      (∃ i, 1 ≤ i ∧ i < b.length ∧ b.take i <:+ sep) ∨
      (∃ i, 1 ≤ i ∧ i < b.length ∧ b.drop i <+: sep)
  | [], h => by
    rw [show joinWith sep [] = [] from rfl, occursIn_nil_right hb] at h
    simp at h
  | [p], h => Or.inl ⟨p, List.mem_singleton.mpr rfl, h⟩
  | p :: q :: ps, h => by
    rw [joinWith_cons, List.append_assoc] at h
    rcases occursIn_append_cases h with h1 | h1 | h1
    · exact Or.inl ⟨p, List.mem_cons_self p _, h1⟩
    · rcases occursIn_append_cases h1 with h2 | h2 | h2
      · exact Or.inr (Or.inl h2)
      · rcases occursIn_joinWith_cases hb hlen (q :: ps) h2 with h3 | h3 | h3 | h3
        · obtain ⟨r, hr, ho⟩ := h3
          exact Or.inl ⟨r, List.mem_cons_of_mem p hr, ho⟩
        · exact Or.inr (Or.inl h3)
        · exact Or.inr (Or.inr (Or.inl h3))
        · exact Or.inr (Or.inr (Or.inr h3))
      · obtain ⟨i, hi1, hi2, hta, _⟩ := h2
        exact Or.inr (Or.inr (Or.inl ⟨i, hi1, hi2, hta⟩))
    · obtain ⟨i, hi1, hi2, _, hdp⟩ := h1
      have hdl : (b.drop i).length ≤ sep.length := by
        simp only [List.length_drop]
        omega
      exact Or.inr (Or.inr (Or.inr ⟨i, hi1, hi2, prefix_append_le hdp hdl⟩))

/-- Boundary-compatibility of a replacement string `new` with a pattern
`b`: `b` does not occur in `new`, is no longer than `new`, no nonempty
proper prefix of `b` ends `new`, and no nonempty proper suffix of `b`
starts `new`.  Under these conditions replacing anything by `new` can
never create a fresh occurrence of `b`. -/
def safePair (new b : List Char) : Bool :=
  decide (b ≠ []) && decide (b.length ≤ new.length) && !(occursIn b new) &&
  ((List.range b.length).all fun i => (i == 0) || !((b.take i).isSuffixOf new)) &&
  ((List.range b.length).all fun i => (i == 0) || !((b.drop i).isPrefixOf new))

theorem safePair_spec {new b : List Char} (h : safePair new b = true) :
    b ≠ [] ∧ b.length ≤ new.length ∧ occursIn b new = false ∧
    (∀ i, 1 ≤ i → i < b.length → ¬ (b.take i <:+ new)) ∧
    (∀ i, 1 ≤ i → i < b.length → ¬ (b.drop i <+: new)) := by
  simp only [safePair, Bool.and_eq_true, decide_eq_true_eq,
    Bool.not_eq_true', List.all_eq_true, List.mem_range, Bool.or_eq_true,
    beq_iff_eq] at h
  obtain ⟨⟨⟨⟨h1, h2⟩, h3⟩, h4⟩, h5⟩ := h
  refine ⟨h1, h2, h3, ?_, ?_⟩
  · intro i hi1 hi2 hc
    rcases h4 i hi2 with h | h
    · omega
    · rw [List.isSuffixOf_iff_suffix.mpr hc] at h
      simp at h
  · intro i hi1 hi2 hc
    rcases h5 i hi2 with h | h
    · omega
    · rw [List.isPrefixOf_iff_prefix.mpr hc] at h
      simp at h

/-- Replacing `old` by `new` never introduces an occurrence of a
boundary-compatible pattern `b`: afterwards `b` is absent whenever `b`
is `old` itself or `b` was absent before. -/
theorem replApply_no_new_occurrence {old new b : List Char}
    (hold : old ≠ []) (hsafe : safePair new b = true) :
    ∀ s : List Char, (b = old ∨ occursIn b s = false) →
      occursIn b (replApply old new s) = false := by
  obtain ⟨hb, hlen, h2, h3, h4⟩ := safePair_spec hsafe
  intro s hs
  rw [replApply_eq_joinWith hold]
  by_contra hc
  rw [Bool.not_eq_false] at hc
  rcases occursIn_joinWith_cases hb hlen (splitOnL old s) hc with h | h | h | h
  · obtain ⟨p, hp, ho⟩ := h
    rcases hs with rfl | hs
    · rw [splitOnL_no_occurrence hold s p hp] at ho
      simp at ho
    · rw [not_occursIn_mono (splitOnL_infixOf s p hp) hs] at ho
      simp at ho
  · rw [h2] at h
    simp at h
  · obtain ⟨i, hi1, hi2, hsuf⟩ := h
    exact h3 i hi1 hi2 hsuf
  · obtain ⟨i, hi1, hi2, hpre⟩ := h
    exact h4 i hi1 hi2 hpre

/-! ### The find/replace utility (`tmp_replace.py`) -/

/-- The loop `for old, new in replacements: new_text = new_text.replace(old, new)`. -/
def applyRepls (rules : List (List Char × List Char)) (s : List Char) : List Char :=
  rules.foldl (fun t r => pyReplace r.1 r.2 t) s

theorem applyRepls_cons (r : List Char × List Char)
    (rs : List (List Char × List Char)) (s : List Char) :
    applyRepls (r :: rs) s = applyRepls rs (pyReplace r.1 r.2 s) := rfl

theorem applyRepls_preserves {b : List Char} :
    ∀ rules : List (List Char × List Char),
      (∀ r ∈ rules, r.1 ≠ [] ∧ safePair r.2 b = true) →
      ∀ s, occursIn b s = false → occursIn b (applyRepls rules s) = false
  | [], _, _, h => h
  | r :: rs, hr, s, h => by
    have h1 := hr r (List.mem_cons_self r rs)
    rw [applyRepls_cons, pyReplace_eq_replApply _ _ h1.1]
    exact applyRepls_preserves rs (fun r2 hr2 => hr r2 (List.mem_cons_of_mem r hr2))
      _ (replApply_no_new_occurrence h1.1 h1.2 s (Or.inr h))

/-- After running a pairwise boundary-compatible rule list, no rule's
pattern occurs in the result, whatever the input was. -/
theorem applyRepls_kills :
    ∀ rules : List (List Char × List Char),
      (∀ r ∈ rules, r.1 ≠ []) →
      (∀ r ∈ rules, ∀ r2 ∈ rules, safePair r.2 r2.1 = true) →
      ∀ r0 ∈ rules, ∀ s, occursIn r0.1 (applyRepls rules s) = false
  | [], _, _, r0, h0, _ => absurd h0 (List.not_mem_nil r0)
  | r :: rs, hne, hsafe, r0, h0, s => by
    rw [applyRepls_cons, pyReplace_eq_replApply _ _ (hne r (List.mem_cons_self r rs))]
    rcases List.mem_cons.mp h0 with rfl | h0
    · exact applyRepls_preserves rs
        (fun r2 hr2 => ⟨hne r2 (List.mem_cons_of_mem _ hr2),
          hsafe r2 (List.mem_cons_of_mem _ hr2) r0 (List.mem_cons_self r0 rs)⟩) _
        (replApply_no_new_occurrence (hne r0 (List.mem_cons_self r0 rs))
          (hsafe r0 (List.mem_cons_self r0 rs) r0 (List.mem_cons_self r0 rs)) s
          (Or.inl rfl))
    · exact applyRepls_kills rs (fun r2 h2 => hne r2 (List.mem_cons_of_mem _ h2))
        (fun r2 h2 r3 h3 => hsafe r2 (List.mem_cons_of_mem _ h2) r3
          (List.mem_cons_of_mem _ h3)) r0 h0 _

theorem applyRepls_id :
    ∀ rules : List (List Char × List Char), ∀ s,
      (∀ r ∈ rules, r.1 ≠ [] ∧ occursIn r.1 s = false) →
      applyRepls rules s = s
  | [], _, _ => rfl
  | r :: rs, s, h => by
    have h1 := h r (List.mem_cons_self r rs)
    rw [applyRepls_cons, pyReplace_eq_replApply _ _ h1.1,
      replApply_of_not_occursIn h1.1 s h1.2]
    exact applyRepls_id rs s (fun r2 h2 => h r2 (List.mem_cons_of_mem r h2))

/-- The ordered substitution list of `tmp_replace.py`. -/
def replacements : List (List Char × List Char) :=
  [(toL "Copy IDs", toL "Reference IDs"),
   (toL "copy IDs", toL "Reference IDs"),
   (toL "copy ids", toL "Reference IDs"),
   (toL "Copy Ids", toL "Reference IDs"),
   (toL "copy Ids", toL "Reference IDs"),
   (toL "Copy ID", toL "Reference ID"),
   (toL "copy ID", toL "Reference ID"),
   (toL "Copy id", toL "Reference ID"),
   (toL "copy id", toL "Reference ID")]

/-- The full substitution pass of `tmp_replace.py` on one text. -/
def applySubstitutions (s : List Char) : List Char := applyRepls replacements s

/-- ASCII lowercasing, as `str.lower` on the repository's paths. -/
def lowerL (s : List Char) : List Char := s.map Char.toLower

/-- Index of the last `'.'` in a file name, if any (`name.rfind('.')`). -/
def lastDotIdx (name : List Char) : Option Nat :=
  ((List.range name.length).filter (fun i => name.getD i ' ' = '.')).getLast?

/-- `pathlib.PurePath.suffix`: the extension from the last dot, empty
when the name starts with its only dot or ends with a dot. -/
def pySuffix (name : List Char) : List Char :=
  match lastDotIdx name with
  | none => []
  | some i => if 0 < i ∧ i < name.length - 1 then name.drop i else []

/-- `pathlib.PurePath.stem`: the name without `pySuffix`. -/
def pyStem (name : List Char) : List Char :=
  match lastDotIdx name with
  | none => name
  | some i => if 0 < i ∧ i < name.length - 1 then name.take i else name

/-- A file visited by `tmp_replace.py`: path components relative to the
script's directory, text, and whether the text decodes as UTF-8
(`read_text` raising `UnicodeDecodeError` makes the loop skip it). -/
structure TRFile where
  rel : List (List Char)
  text : List Char
  decodeOk : Bool

/-- `skip_prefixes` of `tmp_replace.py`. -/
def trSkipPrefixes : List (List (List Char)) :=
  [[toL "frontend", toL "build"], [toL "frontend", toL "node_modules"],
   [toL "node_modules"], [toL ".git"], [toL "backend", toL "uploads"]]

/-- `allowed_prefixes` of `tmp_replace.py`. -/
def trAllowedPrefixes : List (List (List Char)) :=
  [[toL "frontend", toL "src"], [toL "frontend", toL "public"],
   [toL "backend", toL "routes"], [toL "backend", toL "test"]]

/-- `extensions` of `tmp_replace.py`. -/
def trExtensions : List (List Char) :=
  [toL ".js", toL ".jsx", toL ".ts", toL ".tsx", toL ".json", toL ".md",
   toL ".ps1", toL ".yml", toL ".yaml", toL ".txt", toL ".html", toL ".css"]

/-- A file passes the utility's filters: not under a denied prefix
(`rel.relative_to(prefix)` succeeds exactly when the prefix components
lead the path), under an allowed prefix, extension in the fixed set,
and decodable. -/
def trSelected (f : TRFile) : Bool :=
  !(trSkipPrefixes.any fun p => p.isPrefixOf f.rel) &&
  (trAllowedPrefixes.any fun p => p.isPrefixOf f.rel) &&
  (trExtensions.contains (lowerL (pySuffix (f.rel.getLastD [])))) &&
  f.decodeOk

/-- Modelled from the spec side for comparison with the loop: a file is
written back exactly when the substitutions change its content. -/
def trWouldWrite (f : TRFile) : Bool :=
  trSelected f && !(applySubstitutions f.text == f.text)

/-- Declarative per-file effect: changed files carry the substituted
text, unchanged files are untouched. -/
def trWriteStep (f : TRFile) : TRFile :=
  if trWouldWrite f then { f with text := applySubstitutions f.text } else f

/-- Posix-style relative path (`str(rel).replace('\\', '/')`). -/
def trRelString (f : TRFile) : List Char := joinWith (toL "/") f.rel

/-- The main loop of `tmp_replace.py`: walk the files in order, apply
the substitutions, write back changed files, collect their relative
paths (the printed count is the length of that list). -/
def runReplace : List TRFile → List TRFile × List (List Char)
  | [] => ([], [])
  | f :: fs =>
    if trSelected f then
      if applySubstitutions f.text == f.text then
        let done := runReplace fs
        (f :: done.1, done.2)
      else
        let done := runReplace fs
        ({ f with text := applySubstitutions f.text } :: done.1,
          trRelString f :: done.2)
    else
      let done := runReplace fs
      (f :: done.1, done.2)

theorem trSelected_writeStep (f : TRFile) :
    trSelected (trWriteStep f) = trSelected f := by
  have hrel : (trWriteStep f).rel = f.rel := by
    unfold trWriteStep
    split
    · rfl
    · rfl
  have hok : (trWriteStep f).decodeOk = f.decodeOk := by
    unfold trWriteStep
    split
    · rfl
    · rfl
  unfold trSelected
  rw [hrel, hok]

/-- The loop agrees with the declarative description: the final file
states are `trWriteStep` of the inputs, and the reported list names
exactly the files whose content the substitutions change. -/
theorem runReplace_spec : ∀ files : List TRFile,
    (runReplace files).1 = files.map trWriteStep ∧
    (runReplace files).2 = (files.filter trWouldWrite).map trRelString
  | [] => ⟨rfl, rfl⟩
  | f :: fs => by
    have ih := runReplace_spec fs
    by_cases hsel : trSelected f = true
    · by_cases heq : (applySubstitutions f.text == f.text) = true
      · have hw : trWouldWrite f = false := by
          unfold trWouldWrite
          rw [heq]
          simp
        constructor
        · show (runReplace (f :: fs)).1 = trWriteStep f :: fs.map trWriteStep
          unfold runReplace
          rw [if_pos hsel, if_pos heq]
          unfold trWriteStep
          rw [hw]
          simpa using ih.1
        · show (runReplace (f :: fs)).2 = ((f :: fs).filter trWouldWrite).map trRelString
          unfold runReplace
          rw [if_pos hsel, if_pos heq, List.filter_cons_of_neg (by simp [hw])]
          simpa using ih.2
      · have hw : trWouldWrite f = true := by
          unfold trWouldWrite
          rw [hsel]
          simp only [Bool.true_and, Bool.not_eq_true']
          exact Bool.not_eq_true _ ▸ (by simpa using heq)
        constructor
        · show (runReplace (f :: fs)).1 = trWriteStep f :: fs.map trWriteStep
          unfold runReplace
          rw [if_pos hsel, if_neg heq]
          unfold trWriteStep
          rw [hw]
          simpa using ih.1
        · show (runReplace (f :: fs)).2 = ((f :: fs).filter trWouldWrite).map trRelString
          unfold runReplace
          rw [if_pos hsel, if_neg heq, List.filter_cons_of_pos (by simp [hw])]
          simpa using ih.2
    · have hw : trWouldWrite f = false := by
        unfold trWouldWrite
        rw [Bool.not_eq_true] at hsel
        rw [hsel]
        simp
      constructor
      · show (runReplace (f :: fs)).1 = trWriteStep f :: fs.map trWriteStep
        unfold runReplace
        rw [if_neg (by simpa using hsel)]
        unfold trWriteStep
        rw [hw]
        simpa using ih.1
      · show (runReplace (f :: fs)).2 = ((f :: fs).filter trWouldWrite).map trRelString
        unfold runReplace
        rw [if_neg (by simpa using hsel), List.filter_cons_of_neg (by simp [hw])]
        simpa using ih.2

/-- C9: The find/replace utility writes back a file exactly when the
ordered list of literal substitutions changes that file's content:
final states are `trWriteStep` of the inputs, a file's text differs
from its input exactly when `trWouldWrite` holds, i.e. when it is
selected and the substitutions change its content, and the utility
reports exactly the modified relative paths together with their
count. -/
theorem claim_C9 : ∀ files : List TRFile,
    (runReplace files).1 = files.map trWriteStep ∧
    (runReplace files).2 = (files.filter trWouldWrite).map trRelString ∧
    ((runReplace files).2).length = (files.filter trWouldWrite).length ∧
    ∀ f ∈ files, ((trWriteStep f).text = f.text ↔ trWouldWrite f = false) ∧
      (trWouldWrite f = true ↔
        trSelected f = true ∧ applySubstitutions f.text ≠ f.text) := by
  intro files
  obtain ⟨h1, h2⟩ := runReplace_spec files
  have hwc : ∀ f : TRFile, trWouldWrite f = true ↔
      trSelected f = true ∧ applySubstitutions f.text ≠ f.text := by
    intro f
    unfold trWouldWrite
    rw [Bool.and_eq_true, Bool.not_eq_true', beq_eq_false_iff_ne]
  refine ⟨h1, h2, by rw [h2]; simp, ?_⟩
  intro f _
  refine ⟨?_, hwc f⟩
  by_cases h : trWouldWrite f = true
  · have hne : applySubstitutions f.text ≠ f.text := ((hwc f).mp h).2
    have hstep : (trWriteStep f).text = applySubstitutions f.text := by
      unfold trWriteStep
      rw [if_pos h]
    rw [hstep, h]
    simp only [Bool.true_eq_false, iff_false]
    exact hne
  · have hstep : trWriteStep f = f := by
      unfold trWriteStep
      rw [if_neg h]
    rw [Bool.not_eq_true] at h
    rw [hstep, h]
    simp

/-- A closed instance of C9 on a one-file corpus whose content the
substitutions change. -/
theorem claim_C9_witness :
    ((trWriteStep ⟨[toL "frontend", toL "src", toL "a.js"],
        toL "copy id", true⟩).text =
      (⟨[toL "frontend", toL "src", toL "a.js"],
        toL "copy id", true⟩ : TRFile).text ↔
      trWouldWrite ⟨[toL "frontend", toL "src", toL "a.js"],
        toL "copy id", true⟩ = false) ∧
    (runReplace [⟨[toL "frontend", toL "src", toL "a.js"],
        toL "copy id", true⟩]).2 = [toL "frontend/src/a.js"] := by
  constructor
  · exact ((claim_C9 [⟨[toL "frontend", toL "src", toL "a.js"],
      toL "copy id", true⟩]).2.2.2 _ (List.mem_singleton.mpr rfl)).1
  · rw [(claim_C9 [⟨[toL "frontend", toL "src", toL "a.js"],
      toL "copy id", true⟩]).2.1]
    decide

/-- C10: The substitution pass is idempotent — no replacement output
re-introduces any listed old string, so applying the full ordered list
a second time changes nothing, and a second run of the utility over the
already-processed tree modifies zero files. -/
theorem claim_C10 :
    (∀ s : List Char,
      applySubstitutions (applySubstitutions s) = applySubstitutions s) ∧
    (∀ files : List TRFile, (runReplace ((runReplace files).1)).2 = []) := by
  have hne : ∀ r ∈ replacements, r.1 ≠ [] := by decide
  have hsafe : ∀ r ∈ replacements, ∀ r2 ∈ replacements,
      safePair r.2 r2.1 = true := by decide
  have hidem : ∀ s : List Char,
      applySubstitutions (applySubstitutions s) = applySubstitutions s := by
    intro s
    exact applyRepls_id replacements (applySubstitutions s)
      (fun r hr => ⟨hne r hr, applyRepls_kills replacements hne hsafe r hr s⟩)
  refine ⟨hidem, ?_⟩
  intro files
  rw [(runReplace_spec _).2, (runReplace_spec files).1]
  have hnone : ∀ g ∈ files.map trWriteStep, trWouldWrite g = false := by
    intro g hg
    obtain ⟨f, _, rfl⟩ := List.mem_map.mp hg
    unfold trWouldWrite
    rw [trSelected_writeStep]
    by_cases hw : trWouldWrite f = true
    · have htext : (trWriteStep f).text = applySubstitutions f.text := by
        unfold trWriteStep
        rw [if_pos hw]
      rw [htext, hidem f.text]
      simp
    · have hstep : trWriteStep f = f := by
        unfold trWriteStep
        rw [if_neg hw]
      rw [Bool.not_eq_true] at hw
      unfold trWouldWrite at hw
      rw [hstep]
      cases hsel : trSelected f with
      | false => simp
      | true =>
        rw [hsel] at hw
        simp only [Bool.true_and] at hw ⊢
        exact hw
  rw [List.filter_eq_nil_iff.mpr (by
    intro g hg
    rw [hnone g hg]
    simp)]
  rfl

/-! ### The catalog generator (`scripts/generate_program_listing.py`)

A scanned file is its list of path components relative to the root
(`path.relative_to(root).parts`); `name` is the last component. -/

/-- `path.name`. -/
def nameOf (p : List (List Char)) : List Char := p.getLastD []

/-- `path.relative_to(root).as_posix()`. -/
def relPosix (p : List (List Char)) : List Char := joinWith (toL "/") p

/-- The lowercased posix-style relative path (`rel.lower()`). -/
def relLower (p : List (List Char)) : List Char := lowerL (relPosix p)

/-- `skip_dirs` of the generator. -/
def skipDirs : List (List Char) :=
  [toL ".git", toL "node_modules", toL ".next", toL ".turbo", toL ".idea",
   toL ".vscode", toL "__pycache__", toL ".pytest_cache", toL ".venv"]

/-- `skip_files` of the generator. -/
def skipFiles : List (List Char) := [toL ".DS_Store", toL "Thumbs.db"]

/-- `binary_exts` of the generator. -/
def binaryExts : List (List Char) :=
  [toL ".png", toL ".jpg", toL ".jpeg", toL ".gif", toL ".bmp", toL ".ico",
   toL ".svg", toL ".mp4", toL ".mov", toL ".avi", toL ".mp3", toL ".wav",
   toL ".pdf", toL ".zip", toL ".7z", toL ".rar", toL ".map", toL ".lock",
   toL ".woff", toL ".woff2", toL ".ttf", toL ".eot"]

/-- `exclude_prefixes` inside `is_program_file`. -/
def excludePrefixStrs : List (List Char) :=
  [toL "frontend/build/", toL "frontend/public/", toL "backend/data/",
   toL "backend/test/", toL "backend/uploads/", toL "docs/", toL "scripts/"]

/-- `exclude_names` inside `is_program_file`. -/
def excludeNames : List (List Char) :=
  [toL "package-lock.json", toL "yarn.lock", toL "pnpm-lock.yaml",
   toL ".env", toL ".env.example", toL ".env.development", toL ".gitignore",
   toL "readme.md", toL "file_status_report.txt"]

/-- `should_skip`: some component of the relative path is an ignored
directory name. -/
def shouldSkip (p : List (List Char)) : Bool :=
  p.any (fun part => decide (part ∈ skipDirs))

/-- `is_program_file`, checked in the source's order. -/
def isProgramFile (p : List (List Char)) : Bool :=
  if nameOf p ∈ skipFiles then false
  else if lowerL (pySuffix (nameOf p)) ∈ binaryExts then false
  else if excludePrefixStrs.any (fun pre => pre.isPrefixOf (relLower p)) then false
  else if lowerL (nameOf p) ∈ excludeNames then false
  else if lowerL (pySuffix (nameOf p)) ∈ [toL ".log", toL ".bak"] then false
  else if occursIn (toL ".bak.") (lowerL (nameOf p)) then false
  else true

/-- Ordering on character lists used by Python's `sorted`. -/
def lexRel (a b : List Char) : Prop := lexLe a b = true

instance : DecidableRel lexRel := fun a b => by
  unfold lexRel
  infer_instance

instance : IsTotal (List Char) lexRel := ⟨lexLe_total⟩

instance : IsTrans (List Char) lexRel := ⟨fun a b c => lexLe_trans a b c⟩

/-- Ordering of scanned files by lowercased relative path
(`program_files.sort(key=lambda p: p.relative_to(root).as_posix().lower())`). -/
def relOrd (a b : List (List Char)) : Prop := lexRel (relLower a) (relLower b)

instance : DecidableRel relOrd := fun a b => by
  unfold relOrd
  infer_instance

instance : IsTotal (List (List Char)) relOrd :=
  ⟨fun a b => lexLe_total (relLower a) (relLower b)⟩

instance : IsTrans (List (List Char)) relOrd :=
  ⟨fun a b c => lexLe_trans (relLower a) (relLower b) (relLower c)⟩

/-- The File Selector: walk candidates, drop skipped and non-program
files, sort by lowercased relative path. -/
def programFiles (cands : List (List (List Char))) : List (List (List Char)) :=
  List.insertionSort relOrd
    (cands.filter (fun p => !shouldSkip p && isProgramFile p))

/-- C8: a file matched by any exclusion rule — ignored directory
component, excluded exact filename, excluded extension (binary/media
formats or logs/backups), or a name containing the literal ".bak."
infix — never appears in the Selector's output, whatever else is in the
candidate walk. -/
theorem claim_C8 : ∀ (cands : List (List (List Char))) (p : List (List Char)),
    ((∃ part ∈ p, part ∈ skipDirs) ∨
     nameOf p ∈ skipFiles ∨
     lowerL (pySuffix (nameOf p)) ∈ binaryExts ∨
     lowerL (pySuffix (nameOf p)) ∈ [toL ".log", toL ".bak"] ∨
     lowerL (nameOf p) ∈ excludeNames ∨
     occursIn (toL ".bak.") (lowerL (nameOf p)) = true) →
    p ∉ programFiles cands := by
  intro cands p hex hmem
  have hperm := List.perm_insertionSort relOrd
    (cands.filter (fun q => !shouldSkip q && isProgramFile q))
  have hf : p ∈ cands.filter (fun q => !shouldSkip q && isProgramFile q) :=
    hperm.mem_iff.mp hmem
  have hpred := (List.mem_filter.mp hf).2
  rw [Bool.and_eq_true] at hpred
  obtain ⟨hns, hipf⟩ := hpred
  have hfalse : shouldSkip p = true ∨ isProgramFile p = false := by
    rcases hex with h | h | h | h | h | h
    · left
      unfold shouldSkip
      rw [List.any_eq_true]
      obtain ⟨part, h1, h2⟩ := h
      exact ⟨part, h1, decide_eq_true h2⟩
    · right
      unfold isProgramFile
      split_ifs with h1 h2 h3 h4 h5 h6 <;> first | rfl | exact absurd h h1
    · right
      unfold isProgramFile
      split_ifs with h1 h2 h3 h4 h5 h6 <;> first | rfl | exact absurd h h2
    · right
      unfold isProgramFile
      split_ifs with h1 h2 h3 h4 h5 h6 <;> first | rfl | exact absurd h h5
    · right
      unfold isProgramFile
      split_ifs with h1 h2 h3 h4 h5 h6 <;> first | rfl | exact absurd h h4
    · right
      unfold isProgramFile
      split_ifs with h1 h2 h3 h4 h5 h6 <;> first | rfl | exact absurd h h6
  rcases hfalse with h | h
  · rw [h] at hns
    simp at hns
  · rw [h] at hipf
    simp at hipf

/-- A closed instance of C8: a file under `node_modules` is excluded
even though its extension would qualify it. -/
theorem claim_C8_witness :
    [toL "node_modules", toL "x.js"] ∉
      programFiles [[toL "node_modules", toL "x.js"]] :=
  claim_C8 [[toL "node_modules", toL "x.js"]] [toL "node_modules", toL "x.js"]
    (Or.inl (by decide))

/-! ### Table/collection-usage detection (`find_table_used`) -/

/-- The vocabulary entries matching a file: `name in rel_lower or name
in file_stem`, in vocabulary order. -/
def findTableMatches (vocab : List (List Char)) (p : List (List Char)) :
    List (List Char) :=
  vocab.filter (fun n =>
    occursIn n (relLower p) || occursIn n (lowerL (pyStem (nameOf p))))

/-- Python's `sorted` on strings. -/
def sortStrings (l : List (List Char)) : List (List Char) :=
  List.insertionSort lexRel l

/-- `find_table_used`: the sorted, de-duplicated, comma-joined matches,
or the sentinel `"None"`. -/
def findTableUsed (vocab : List (List Char)) (p : List (List Char)) :
    List Char :=
  let ms := findTableMatches vocab p
  if ms = [] then toL "None" else joinWith (toL ", ") (sortStrings ms.dedup)

/-- C4: table-usage detection reports exactly the vocabulary entries
occurring as substrings of the lowercased relative path or stem —
sorted, de-duplicated, comma-joined — and returns the sentinel `"None"`
(not an empty string) when nothing matches; with vocabulary
`{"users", "logs"}` the path `backend/routes/users.js` yields
`"users"`. -/
theorem claim_C4 :
    (∀ vocab p, (∀ n ∈ vocab, occursIn n (relLower p) = false ∧
        occursIn n (lowerL (pyStem (nameOf p))) = false) →
      findTableUsed vocab p = toL "None") ∧
    (∀ vocab p n, n ∈ sortStrings (findTableMatches vocab p).dedup ↔
      n ∈ vocab ∧ (occursIn n (relLower p) = true ∨
        occursIn n (lowerL (pyStem (nameOf p))) = true)) ∧
    (∀ vocab p, List.Sorted lexRel (sortStrings (findTableMatches vocab p).dedup) ∧
      (sortStrings (findTableMatches vocab p).dedup).Nodup) ∧
    findTableUsed [toL "users", toL "logs"]
      [toL "backend", toL "routes", toL "users.js"] = toL "users" := by
  refine ⟨?_, ?_, ?_, by decide⟩
  · intro vocab p h
    unfold findTableUsed
    have hms : findTableMatches vocab p = [] := by
      unfold findTableMatches
      rw [List.filter_eq_nil_iff]
      intro n hn
      rw [(h n hn).1, (h n hn).2]
      simp
    rw [hms]
    rfl
  · intro vocab p n
    unfold sortStrings
    rw [(List.perm_insertionSort lexRel _).mem_iff, List.mem_dedup]
    unfold findTableMatches
    rw [List.mem_filter, Bool.or_eq_true]
  · intro vocab p
    exact ⟨List.sorted_insertionSort lexRel _,
      (List.perm_insertionSort lexRel _).nodup_iff.mpr (List.nodup_dedup _)⟩

/-- A closed instance of C4: an unmatched vocabulary yields the
sentinel, and the scenario list membership holds. -/
theorem claim_C4_witness :
    findTableUsed [toL "zzz"] [toL "a.js"] = toL "None" ∧
    (toL "users" ∈ sortStrings (findTableMatches [toL "users", toL "logs"]
      [toL "backend", toL "routes", toL "users.js"]).dedup ↔
      toL "users" ∈ [toL "users", toL "logs"] ∧
      (occursIn (toL "users") (relLower [toL "backend", toL "routes",
        toL "users.js"]) = true ∨
       occursIn (toL "users") (lowerL (pyStem (nameOf [toL "backend",
        toL "routes", toL "users.js"]))) = true)) :=
  ⟨claim_C4.1 [toL "zzz"] [toL "a.js"] (by decide),
   claim_C4.2.1 [toL "users", toL "logs"]
     [toL "backend", toL "routes", toL "users.js"] (toL "users")⟩

/-! ### Module classification and the Report Assembler -/

/-- `module_name`: first-match-wins prefix rules on the lowercased
relative path. -/
def moduleName (p : List (List Char)) : List Char :=
  let lower := relLower p
  if (toL "backend/adapters/").isPrefixOf lower then toL "Backend - Adapters"
  else if (toL "backend/middleware/").isPrefixOf lower then toL "Backend - Middleware"
  else if (toL "backend/routes/").isPrefixOf lower then toL "Backend - Routes"
  else if (toL "backend/utils/").isPrefixOf lower then toL "Backend - Utils"
  else if (toL "backend/scripts/").isPrefixOf lower then toL "Backend - Scripts"
  else if (toL "backend/").isPrefixOf lower then toL "Backend - Core"
  else if (toL "frontend/src/pages/").isPrefixOf lower then toL "Frontend - Pages"
  else if (toL "frontend/src/components/").isPrefixOf lower then toL "Frontend - Components"
  else if (toL "frontend/src/contexts/").isPrefixOf lower then toL "Frontend - Contexts"
  else if (toL "frontend/src/utils/").isPrefixOf lower then toL "Frontend - Utils"
  else if (toL "frontend/src/theme/").isPrefixOf lower then toL "Frontend - Theme"
  else if (toL "frontend/src/data/").isPrefixOf lower then toL "Frontend - Data"
  else if (toL "frontend/src/").isPrefixOf lower then toL "Frontend - Core"
  else if (toL "frontend/").isPrefixOf lower then toL "Frontend - Other"
  else toL "Other"

/-- File order inside a module section:
`sorted(grouped[group], key=lambda p: p.name.lower())`. -/
def nameOrd (a b : List (List Char)) : Prop :=
  lexRel (lowerL (nameOf a)) (lowerL (nameOf b))

instance : DecidableRel nameOrd := fun a b => by
  unfold nameOrd
  infer_instance

instance : IsTotal (List (List Char)) nameOrd :=
  ⟨fun a b => lexLe_total (lowerL (nameOf a)) (lowerL (nameOf b))⟩

instance : IsTrans (List (List Char)) nameOrd :=
  ⟨fun a b c => lexLe_trans (lowerL (nameOf a)) (lowerL (nameOf b))
    (lowerL (nameOf c))⟩

/-- The Assembler's section structure: `grouped` maps each module label
to the files carrying it (in scan order); the emitted sections follow
`sorted(grouped.keys())`, and each section lists its files sorted by
lowercased filename.  The sorted key list is the sorted de-duplicated
label list. -/
def assembleSections (files : List (List (List Char))) :
    List (List Char × List (List (List Char))) :=
  (sortStrings (files.map moduleName).dedup).map
    (fun g => (g, List.insertionSort nameOrd
      (files.filter (fun p => moduleName p = g))))

/-- C7: in the assembled report the module sections appear in
alphabetical label order, and the files inside every section appear in
case-insensitive alphabetical filename order, for every input corpus. -/
theorem claim_C7 : ∀ files : List (List (List Char)),
    List.Sorted lexRel ((assembleSections files).map Prod.fst) ∧
    ∀ sec ∈ assembleSections files, List.Sorted nameOrd sec.2 := by
  intro files
  constructor
  · unfold assembleSections
    rw [List.map_map]
    have hmap : (Prod.fst ∘ fun g => (g, List.insertionSort nameOrd
        (files.filter (fun p => moduleName p = g)))) = id := rfl
    rw [hmap, List.map_id]
    exact List.sorted_insertionSort lexRel _
  · intro sec hsec
    unfold assembleSections at hsec
    obtain ⟨g, _, rfl⟩ := List.mem_map.mp hsec
    exact List.sorted_insertionSort nameOrd _

/-- A closed instance of C7 on a two-file corpus. -/
theorem claim_C7_witness :
    List.Sorted lexRel ((assembleSections
      [[toL "backend", toL "routes", toL "users.js"],
       [toL "backend", toL "routes", toL "Auth.js"]]).map Prod.fst) ∧
    List.Sorted nameOrd (toL "Backend - Routes",
      [[toL "backend", toL "routes", toL "Auth.js"],
       [toL "backend", toL "routes", toL "users.js"]]).2 :=
  ⟨(claim_C7 [[toL "backend", toL "routes", toL "users.js"],
      [toL "backend", toL "routes", toL "Auth.js"]]).1,
   (claim_C7 [[toL "backend", toL "routes", toL "users.js"],
      [toL "backend", toL "routes", toL "Auth.js"]]).2
     (toL "Backend - Routes",
      [[toL "backend", toL "routes", toL "Auth.js"],
       [toL "backend", toL "routes", toL "users.js"]]) (by decide)⟩

/-! ### Caller inference (`find_called_by`)

The eight reference regexes are sequences of literals, single-character
classes, and starred/plussed character classes; a `Tok` list is such a
sequence, and `searchSeq` is `re.search`: does any substring match? -/

inductive Tok where
  | lit : List Char → Tok
  | one : (Char → Bool) → Tok
  | star : (Char → Bool) → Tok
  | plus : (Char → Bool) → Tok

/-- Does some prefix of `s` match the token sequence?  Starred classes
try every split inside the maximal run, as regex backtracking does. -/
def matchSeq : List Tok → List Char → Bool
  | [], _ => true
  | Tok.lit l :: ts, s => l.isPrefixOf s && matchSeq ts (s.drop l.length)
  | Tok.one p :: ts, s =>
    match s with
    | [] => false
    | c :: rest => p c && matchSeq ts rest
  | Tok.star p :: ts, s =>
    (List.range ((s.takeWhile p).length + 1)).any fun k => matchSeq ts (s.drop k)
  | Tok.plus p :: ts, s =>
    (List.range ((s.takeWhile p).length + 1)).any fun k =>
      decide (1 ≤ k) && matchSeq ts (s.drop k)

/-- `re.search`: some substring (some prefix of some suffix) matches. -/
def searchSeq (pat : List Tok) (s : List Char) : Bool :=
  s.tails.any (matchSeq pat)

/-- The character class `['\"]`. -/
def isQuoteCh (c : Char) : Bool := c == '\'' || c == '"'

/-- The character class `[^'\"]`. -/
def notQuoteCh (c : Char) : Bool := !(isQuoteCh c)

/-- The character class `[^;]`. -/
def notSemiCh (c : Char) : Bool := c != ';'

/-- `require\(\s*['\"][^'\"]*T['\"]\s*\)` for a literal target `t`. -/
def patRequire (t : List Char) : List Tok :=
  [Tok.lit (toL "require("), Tok.star isPySpace, Tok.one isQuoteCh,
   Tok.star notQuoteCh, Tok.lit t, Tok.one isQuoteCh, Tok.star isPySpace,
   Tok.lit (toL ")")]

/-- `from\s+['\"][^'\"]*T['\"]`. -/
def patFrom (t : List Char) : List Tok :=
  [Tok.lit (toL "from"), Tok.plus isPySpace, Tok.one isQuoteCh,
   Tok.star notQuoteCh, Tok.lit t, Tok.one isQuoteCh]

/-- `import\s+[^;]*from\s+['\"][^'\"]*T['\"]`. -/
def patImport (t : List Char) : List Tok :=
  [Tok.lit (toL "import"), Tok.plus isPySpace, Tok.star notSemiCh,
   Tok.lit (toL "from"), Tok.plus isPySpace, Tok.one isQuoteCh,
   Tok.star notQuoteCh, Tok.lit t, Tok.one isQuoteCh]

/-- `['\"]T['\"]`. -/
def patQuoted (t : List Char) : List Tok :=
  [Tok.one isQuoteCh, Tok.lit t, Tok.one isQuoteCh]

/-- `rel.rsplit(".", 1)[0]`: the relative path up to its last dot
(which may sit in a directory component), or the whole path. -/
def relNoExt (p : List (List Char)) : List Char :=
  let r := relPosix p
  match lastDotIdx r with
  | none => r
  | some i => r.take i

/-- The eight reference patterns for a target, in source order. -/
def refPatterns (target : List (List Char)) : List (List Tok) :=
  [patRequire (nameOf target), patFrom (nameOf target),
   patImport (nameOf target), patRequire (pyStem (nameOf target)),
   patFrom (pyStem (nameOf target)), patImport (pyStem (nameOf target)),
   patQuoted (relPosix target), patQuoted (relNoExt target)]

/-- `any(p.search(content) for p in patterns)`. -/
def matchesRef (target : List (List Char)) (content : List Char) : Bool :=
  (refPatterns target).any (fun pat => searchSeq pat content)

/-- `sorted(..., key=str.lower)`. -/
def lowKeyOrd (a b : List Char) : Prop := lexRel (lowerL a) (lowerL b)

instance : DecidableRel lowKeyOrd := fun a b => by
  unfold lowKeyOrd
  infer_instance

instance : IsTotal (List Char) lowKeyOrd :=
  ⟨fun a b => lexLe_total (lowerL a) (lowerL b)⟩

instance : IsTrans (List Char) lowKeyOrd :=
  ⟨fun a b c => lexLe_trans (lowerL a) (lowerL b) (lowerL c)⟩

def sortByLowerKey (l : List (List Char)) : List (List Char) :=
  List.insertionSort lowKeyOrd l

/-- The caller names collected by the loop in `find_called_by`: every
corpus entry other than the target whose content matches a reference
pattern contributes its file name (`caller.name`). -/
def calledByRaw (corpus : List (List (List Char) × List Char))
    (target : List (List Char)) : List (List Char) :=
  (corpus.filter (fun e => decide (e.1 ≠ target) && matchesRef target e.2)).map
    (fun e => nameOf e.1)

/-- The de-duplicated caller-name list, sorted case-insensitively
(`sorted(set(callers), key=str.lower)`; `set` iteration order is
unspecified in Python, which only matters for distinct names equal
after lowercasing). -/
def calledByList (corpus : List (List (List Char) × List Char))
    (target : List (List Char)) : List (List Char) :=
  sortByLowerKey (calledByRaw corpus target).dedup

/-- `find_called_by`: comma-joined caller names, or `"None"`. -/
def findCalledBy (corpus : List (List (List Char) × List Char))
    (target : List (List Char)) : List Char :=
  let cs := calledByList corpus target
  if cs = [] then toL "None" else joinWith (toL ", ") cs

/-- C3: caller inference never scans the target itself — every entry
contributing to the caller list is a different file — and, whenever no
other corpus file shares the target's file name, the target's name is
absent from its own caller list, even if the target's content matches
its own reference patterns. -/
theorem claim_C3 : ∀ (corpus : List (List (List Char) × List Char))
    (target : List (List Char)),
    (∀ e ∈ corpus.filter
        (fun e => decide (e.1 ≠ target) && matchesRef target e.2),
      e.1 ≠ target) ∧
    ((∀ e ∈ corpus, e.1 ≠ target → nameOf e.1 ≠ nameOf target) →
      nameOf target ∉ calledByList corpus target) := by
  intro corpus target
  constructor
  · intro e he
    have h := (List.mem_filter.mp he).2
    rw [Bool.and_eq_true] at h
    exact of_decide_eq_true h.1
  · intro hname hmem
    unfold calledByList sortByLowerKey at hmem
    rw [(List.perm_insertionSort lowKeyOrd _).mem_iff, List.mem_dedup] at hmem
    unfold calledByRaw at hmem
    obtain ⟨e, he, hne⟩ := List.mem_map.mp hmem
    have h := (List.mem_filter.mp he).2
    rw [Bool.and_eq_true] at h
    exact hname e (List.mem_filter.mp he).1 (of_decide_eq_true h.1) hne

/-- A closed instance of C3: a single-file corpus whose only file
requires itself by name still gets an empty caller list. -/
theorem claim_C3_witness :
    matchesRef [toL "a.js"]
      (toL "const x = require(\x22./a.js\x22);") = true ∧
    nameOf [toL "a.js"] ∉ calledByList
      [([toL "a.js"], toL "const x = require(\x22./a.js\x22);")]
      [toL "a.js"] :=
  ⟨by decide,
   (claim_C3 [([toL "a.js"], toL "const x = require(\x22./a.js\x22);")]
     [toL "a.js"]).2 (by decide)⟩

theorem matchSeq_lit (l : List Char) (ts : List Tok) (r : List Char) :
    matchSeq (Tok.lit l :: ts) (l ++ r) = matchSeq ts r := by
  show (l.isPrefixOf (l ++ r) && matchSeq ts ((l ++ r).drop l.length)) =
    matchSeq ts r
  rw [List.isPrefixOf_iff_prefix.mpr (List.prefix_append l r),
    List.drop_left, Bool.true_and]

theorem matchSeq_one {p : Char → Bool} {c : Char} (hc : p c = true)
    (ts : List Tok) (r : List Char) :
    matchSeq (Tok.one p :: ts) (c :: r) = matchSeq ts r := by
  show (p c && matchSeq ts r) = matchSeq ts r
  rw [hc, Bool.true_and]

theorem takeWhile_append_all {p : Char → Bool} {w : List Char}
    (hw : ∀ c ∈ w, p c = true) (r : List Char) :
    (w ++ r).takeWhile p = w ++ r.takeWhile p := by
  induction w with
  | nil => simp
  | cons c cs ih =>
    rw [List.cons_append, List.takeWhile_cons, hw c (List.mem_cons_self c cs)]
    rw [ih (fun d hd => hw d (List.mem_cons_of_mem c hd))]
    rfl

theorem matchSeq_star {p : Char → Bool} {w : List Char}
    (hw : ∀ c ∈ w, p c = true) {ts : List Tok} {r : List Char}
    (h : matchSeq ts r = true) :
    matchSeq (Tok.star p :: ts) (w ++ r) = true := by
  show (List.range (((w ++ r).takeWhile p).length + 1)).any
    (fun k => matchSeq ts ((w ++ r).drop k)) = true
  rw [List.any_eq_true]
  refine ⟨w.length, ?_, ?_⟩
  · rw [List.mem_range, takeWhile_append_all hw]
    simp only [List.length_append]
    omega
  · rw [List.drop_left]
    exact h

theorem searchSeq_of_suffix {pat : List Tok} {t s : List Char}
    (hts : t <:+ s) (h : matchSeq pat t = true) : searchSeq pat s = true := by
  unfold searchSeq
  rw [List.any_eq_true]
  exact ⟨t, (List.mem_tails _ _).mpr hts, h⟩

theorem matchSeq_plus {p : Char → Bool} {w : List Char}
    (hw : ∀ c ∈ w, p c = true) (hne : w ≠ []) {ts : List Tok} {r : List Char}
    (h : matchSeq ts r = true) :
    matchSeq (Tok.plus p :: ts) (w ++ r) = true := by
  show (List.range (((w ++ r).takeWhile p).length + 1)).any
    (fun k => decide (1 ≤ k) && matchSeq ts ((w ++ r).drop k)) = true
  rw [List.any_eq_true]
  refine ⟨w.length, ?_, ?_⟩
  · rw [List.mem_range, takeWhile_append_all hw]
    simp only [List.length_append]
    omega
  · rw [Bool.and_eq_true]
    constructor
    · have h1 : 1 ≤ w.length := by
        cases w with
        | nil => exact absurd rfl hne
        | cons a as => simp
      exact decide_eq_true h1
    · rw [List.drop_left]
      exact h

/-- `require(<quote><segments><t><quote>)` matches the require pattern
for a literal `t`. -/
theorem matchSeq_require (t mid post : List Char) (q : Char)
    (hq : isQuoteCh q = true) (hmid : ∀ c ∈ mid, notQuoteCh c = true) :
    matchSeq (patRequire t)
      (toL "require(" ++ (q :: (mid ++ (t ++ (q :: (toL ")" ++ post)))))) =
      true := by
  have s6 : matchSeq [Tok.star isPySpace, Tok.lit (toL ")")]
      (toL ")" ++ post) = true := by
    have h0 : matchSeq [Tok.lit (toL ")")] (toL ")" ++ post) = true := by
      rw [matchSeq_lit]
      rfl
    exact matchSeq_star (w := []) (by simp) h0
  have s5 : matchSeq [Tok.one isQuoteCh, Tok.star isPySpace,
      Tok.lit (toL ")")] (q :: (toL ")" ++ post)) = true := by
    rw [matchSeq_one hq]
    exact s6
  have s4 : matchSeq [Tok.lit t, Tok.one isQuoteCh, Tok.star isPySpace,
      Tok.lit (toL ")")] (t ++ (q :: (toL ")" ++ post))) = true := by
    rw [matchSeq_lit]
    exact s5
  have s3 : matchSeq [Tok.star notQuoteCh, Tok.lit t, Tok.one isQuoteCh,
      Tok.star isPySpace, Tok.lit (toL ")")]
      (mid ++ (t ++ (q :: (toL ")" ++ post)))) = true :=
    matchSeq_star hmid s4
  have s2 : matchSeq [Tok.one isQuoteCh, Tok.star notQuoteCh, Tok.lit t,
      Tok.one isQuoteCh, Tok.star isPySpace, Tok.lit (toL ")")]
      (q :: (mid ++ (t ++ (q :: (toL ")" ++ post))))) = true := by
    rw [matchSeq_one hq]
    exact s3
  have s1 : matchSeq [Tok.star isPySpace, Tok.one isQuoteCh,
      Tok.star notQuoteCh, Tok.lit t, Tok.one isQuoteCh,
      Tok.star isPySpace, Tok.lit (toL ")")]
      (q :: (mid ++ (t ++ (q :: (toL ")" ++ post))))) = true :=
    matchSeq_star (w := []) (by simp) s2
  unfold patRequire
  rw [matchSeq_lit]
  exact s1

/-- `from <quote><segments><t><quote>` matches the from pattern for a
literal `t`. -/
theorem matchSeq_from (t mid post : List Char) (q : Char)
    (hq : isQuoteCh q = true) (hmid : ∀ c ∈ mid, notQuoteCh c = true) :
    matchSeq (patFrom t)
      (toL "from" ++ (' ' :: (q :: (mid ++ (t ++ (q :: post)))))) = true := by
  have g3 : matchSeq [Tok.one isQuoteCh] (q :: post) = true := by
    rw [matchSeq_one hq]
    rfl
  have g2 : matchSeq [Tok.lit t, Tok.one isQuoteCh]
      (t ++ (q :: post)) = true := by
    rw [matchSeq_lit]
    exact g3
  have g1 : matchSeq [Tok.star notQuoteCh, Tok.lit t, Tok.one isQuoteCh]
      (mid ++ (t ++ (q :: post))) = true := matchSeq_star hmid g2
  have g0 : matchSeq [Tok.one isQuoteCh, Tok.star notQuoteCh, Tok.lit t,
      Tok.one isQuoteCh] (q :: (mid ++ (t ++ (q :: post)))) = true := by
    rw [matchSeq_one hq]
    exact g1
  have gsp : matchSeq [Tok.plus isPySpace, Tok.one isQuoteCh,
      Tok.star notQuoteCh, Tok.lit t, Tok.one isQuoteCh]
      ([' '] ++ (q :: (mid ++ (t ++ (q :: post))))) = true :=
    matchSeq_plus (by decide) (by decide) g0
  unfold patFrom
  rw [matchSeq_lit]
  exact gsp

/-- `import <names> from <quote><segments><t><quote>` matches the
corresponding pattern for a literal `t`, provided the imported-names
run is semicolon-free. -/
theorem matchSeq_import (t imid mid post : List Char) (q : Char)
    (hq : isQuoteCh q = true) (hmid : ∀ c ∈ mid, notQuoteCh c = true)
    (himid : ∀ c ∈ imid, notSemiCh c = true) :
    matchSeq (patImport t)
      (toL "import" ++ (' ' :: (imid ++ (toL "from" ++
        (' ' :: (q :: (mid ++ (t ++ (q :: post))))))))) = true := by
  have i2 : matchSeq (patFrom t)
      (toL "from" ++ (' ' :: (q :: (mid ++ (t ++ (q :: post)))))) = true :=
    matchSeq_from t mid post q hq hmid
  have i1 : matchSeq (Tok.star notSemiCh :: patFrom t)
      (imid ++ (toL "from" ++ (' ' :: (q :: (mid ++ (t ++ (q :: post))))))) =
      true := matchSeq_star himid i2
  have i0 : matchSeq (Tok.plus isPySpace :: Tok.star notSemiCh :: patFrom t)
      ([' '] ++ (imid ++ (toL "from" ++ (' ' :: (q :: (mid ++
        (t ++ (q :: post)))))))) = true :=
    matchSeq_plus (by decide) (by decide) i1
  unfold patImport
  rw [matchSeq_lit]
  exact i0

theorem matchesRef_of_search (A : List (List Char)) (content : List Char)
    (pat : List Tok) (hpat : pat ∈ refPatterns A)
    (h : searchSeq pat content = true) : matchesRef A content = true := by
  unfold matchesRef
  rw [List.any_eq_true]
  exact ⟨pat, hpat, h⟩

/-- C6: caller inference matches module-load expressions naming the
target's filename or filename-without-extension inside a quoted string
(single or double quote), with or without leading path segments:
whenever another file's content contains a `require(<quoted target>)`
call, a `from <quoted target>` clause, or an
`import <names> from <quoted target>` statement whose quoted string
ends in the target's name or stem, that file's name enters the target's
caller list. -/
theorem claim_C6 : ∀ (corpus : List (List (List Char) × List Char))
    (A B : List (List Char))
    (Bcontent pre imid mid post t : List Char) (q : Char),
    (B, Bcontent) ∈ corpus → B ≠ A → isQuoteCh q = true →
    (∀ c ∈ mid, notQuoteCh c = true) →
    (t = nameOf A ∨ t = pyStem (nameOf A)) →
    (Bcontent = pre ++ toL "require(" ++ [q] ++ mid ++ t ++ [q] ++
        toL ")" ++ post ∨
     Bcontent = pre ++ toL "from " ++ [q] ++ mid ++ t ++ [q] ++ post ∨
     (Bcontent = pre ++ toL "import " ++ imid ++ toL "from " ++ [q] ++
        mid ++ t ++ [q] ++ post ∧
      ∀ c ∈ imid, notSemiCh c = true)) →
    nameOf B ∈ calledByList corpus A := by
  intro corpus A B Bcontent pre imid mid post t q hmem hne hq hmid ht harm
  have hpatR : patRequire t ∈ refPatterns A := by
    rcases ht with rfl | rfl
    · unfold refPatterns
      simp
    · unfold refPatterns
      simp
  have hpatF : patFrom t ∈ refPatterns A := by
    rcases ht with rfl | rfl
    · unfold refPatterns
      simp
    · unfold refPatterns
      simp
  have hpatI : patImport t ∈ refPatterns A := by
    rcases ht with rfl | rfl
    · unfold refPatterns
      simp
    · unfold refPatterns
      simp
  have hmatch : matchesRef A Bcontent = true := by
    rcases harm with heq | heq | ⟨heq, himid⟩
    · have hsfx : (toL "require(" ++
          (q :: (mid ++ (t ++ (q :: (toL ")" ++ post)))))) <:+ Bcontent := by
        refine ⟨pre, ?_⟩
        rw [heq]
        simp [List.append_assoc]
      exact matchesRef_of_search A Bcontent _ hpatR
        (searchSeq_of_suffix hsfx (matchSeq_require t mid post q hq hmid))
    · have e : toL "from " = toL "from" ++ [' '] := by decide
      have hsfx : (toL "from" ++
          (' ' :: (q :: (mid ++ (t ++ (q :: post)))))) <:+ Bcontent := by
        refine ⟨pre, ?_⟩
        rw [heq, e]
        simp [List.append_assoc]
      exact matchesRef_of_search A Bcontent _ hpatF
        (searchSeq_of_suffix hsfx (matchSeq_from t mid post q hq hmid))
    · have e1 : toL "import " = toL "import" ++ [' '] := by decide
      have e2 : toL "from " = toL "from" ++ [' '] := by decide
      have hsfx : (toL "import" ++ (' ' :: (imid ++ (toL "from" ++
          (' ' :: (q :: (mid ++ (t ++ (q :: post))))))))) <:+ Bcontent := by
        refine ⟨pre, ?_⟩
        rw [heq, e1, e2]
        simp [List.append_assoc]
      exact matchesRef_of_search A Bcontent _ hpatI
        (searchSeq_of_suffix hsfx
          (matchSeq_import t imid mid post q hq hmid himid))
  have hBfilter : (B, Bcontent) ∈ corpus.filter
      (fun e => decide (e.1 ≠ A) && matchesRef A e.2) :=
    List.mem_filter.mpr ⟨hmem, by
      rw [Bool.and_eq_true]
      exact ⟨decide_eq_true hne, hmatch⟩⟩
  have hraw : nameOf B ∈ calledByRaw corpus A := by
    unfold calledByRaw
    exact List.mem_map.mpr ⟨(B, Bcontent), hBfilter, rfl⟩
  unfold calledByList sortByLowerKey
  rw [(List.perm_insertionSort lowKeyOrd _).mem_iff, List.mem_dedup]
  exact hraw

/-- Closed instances of C6: `B.js` gains caller status for
`helperModule.js` via `require("./helperModule")` (the spec's stem
scenario), via `require("./helperModule.js")` (filename, double
quotes), via `import h from './helperModule';` (stem, single quotes,
the `from` pattern), and via `import h from "./helperModule.js";`
(filename, the `import` pattern). -/
theorem claim_C6_witness :
    nameOf [toL "B.js"] ∈ calledByList
      [([toL "helperModule.js"], toL "module things"),
       ([toL "B.js"], toL "const h = require(\x22./helperModule\x22);")]
      [toL "helperModule.js"] ∧
    nameOf [toL "B.js"] ∈ calledByList
      [([toL "helperModule.js"], toL "module things"),
       ([toL "B.js"], toL "const h = require(\x22./helperModule.js\x22);")]
      [toL "helperModule.js"] ∧
    nameOf [toL "B.js"] ∈ calledByList
      [([toL "helperModule.js"], toL "module things"),
       ([toL "B.js"], toL "import h from \x27./helperModule\x27;")]
      [toL "helperModule.js"] ∧
    nameOf [toL "B.js"] ∈ calledByList
      [([toL "helperModule.js"], toL "module things"),
       ([toL "B.js"], toL "import h from \x22./helperModule.js\x22;")]
      [toL "helperModule.js"] :=
  ⟨claim_C6
     [([toL "helperModule.js"], toL "module things"),
      ([toL "B.js"], toL "const h = require(\x22./helperModule\x22);")]
     [toL "helperModule.js"] [toL "B.js"]
     (toL "const h = require(\x22./helperModule\x22);")
     (toL "const h = ") [] (toL "./") (toL ";")
     (toL "helperModule") '"'
     (by decide) (by decide) (by decide) (by decide) (Or.inr (by decide))
     (Or.inl (by decide)),
   claim_C6
     [([toL "helperModule.js"], toL "module things"),
      ([toL "B.js"], toL "const h = require(\x22./helperModule.js\x22);")]
     [toL "helperModule.js"] [toL "B.js"]
     (toL "const h = require(\x22./helperModule.js\x22);")
     (toL "const h = ") [] (toL "./") (toL ";")
     (toL "helperModule.js") '"'
     (by decide) (by decide) (by decide) (by decide) (Or.inl (by decide))
     (Or.inl (by decide)),
   claim_C6
     [([toL "helperModule.js"], toL "module things"),
      ([toL "B.js"], toL "import h from \x27./helperModule\x27;")]
     [toL "helperModule.js"] [toL "B.js"]
     (toL "import h from \x27./helperModule\x27;")
     (toL "import h ") [] (toL "./") (toL ";")
     (toL "helperModule") '\''
     (by decide) (by decide) (by decide) (by decide) (Or.inr (by decide))
     (Or.inr (Or.inl (by decide))),
   claim_C6
     [([toL "helperModule.js"], toL "module things"),
      ([toL "B.js"], toL "import h from \x22./helperModule.js\x22;")]
     [toL "helperModule.js"] [toL "B.js"]
     (toL "import h from \x22./helperModule.js\x22;")
     [] (toL "h ") (toL "./") (toL ";")
     (toL "helperModule.js") '"'
     (by decide) (by decide) (by decide) (by decide) (Or.inl (by decide))
     (Or.inr (Or.inr ⟨by decide, by decide⟩))⟩

/-! ### The Code Normalizer (`clean_code`) -/

/-- `str.lstrip()`. -/
def pyLstrip (s : List Char) : List Char := s.dropWhile isPySpace

/-- `str.rstrip()`. -/
def pyRstrip (s : List Char) : List Char := (pyLstrip s.reverse).reverse

/-- `str.strip()`. -/
def pyStrip (s : List Char) : List Char := pyRstrip (pyLstrip s)

/-- Python's `str.splitlines()`: split at the line-boundary characters,
treating `"\r\n"` as one boundary, with no entry after a trailing
boundary (`"" → []`, `"a\n" → ["a"]`, `"\n" → [""]`). -/
def pySplitlines : List Char → List (List Char)
  | [] => []
  | c :: rest =>
    if c = '\r' then
      match rest with
      | [] => [[]]
      | '\n' :: rest2 => [] :: pySplitlines rest2
      | c2 :: rest2 => [] :: pySplitlines (c2 :: rest2)
    else if isLineBreak c then [] :: pySplitlines rest
    else consHead c (pySplitlines rest)

/-- The blank-collapsing loop of `clean_code` (the flag records
"previous line was blank"). -/
def collapseAux : Bool → List (List Char) → List (List Char)
  | _, [] => []
  | blank, l :: ls =>
    if pyStrip l = [] then
      if blank then collapseAux true ls else [] :: collapseAux true ls
    else l :: collapseAux false ls

def collapseLines (lines : List (List Char)) : List (List Char) :=
  collapseAux false lines

/-- The whitespace-normalization tail of `clean_code`: rstrip every
line, collapse blank-line runs, join with newlines, strip the ends. -/
def normalize (cleaned : List Char) : List Char :=
  pyStrip (joinWith (toL "\n")
    (collapseLines ((pySplitlines cleaned).map pyRstrip)))

/-- Scan for the earliest `*/`, returning the text after it. -/
def findClose : List Char → Option (List Char)
  | [] => none
  | '*' :: '/' :: rest => some rest
  | _ :: rest => findClose rest

/-- `re.sub(r"/\*.*?\*/", "", s, flags=re.DOTALL)`: remove each
leftmost, shortest block comment, continuing after the removed text.
Every step consumes at least one character, so fuel `s.length` never
runs out. -/
def stripBlockAux : Nat → List Char → List Char
  | 0, s => s
  | fuel + 1, s =>
    match s with
    | '/' :: '*' :: rest =>
      (match findClose rest with
       | some rest2 => stripBlockAux fuel rest2
       | none => '/' :: stripBlockAux fuel ('*' :: rest))
    | c :: rest => c :: stripBlockAux fuel rest
    | [] => []

def stripBlockComments (s : List Char) : List Char := stripBlockAux s.length s

/-- `re.sub(r"^\s*M.*$", "", s, flags=re.MULTILINE)` for a line-comment
marker `M` (`//` or `#`): at each anchor (start of string, or right
after a newline) a greedy `\s*` run — which may span blank lines —
followed by the marker erases everything up to the next newline (`$`
matches before `\n`, so the newline itself stays).  Whitespace cannot
begin the marker, so backtracking inside `\s*` never helps.  Fuel as
above. -/
def stripLineAux (marker : List Char) : Nat → List Char → List Char
  | 0, s => s
  | fuel + 1, s =>
    if marker.isPrefixOf (s.dropWhile isPySpace) then
      match (s.dropWhile isPySpace).dropWhile (fun c => c ≠ '\n') with
      | [] => []
      | c :: tail => c :: stripLineAux marker fuel tail
    else
      match s.dropWhile (fun c => c ≠ '\n') with
      | [] => s
      | c :: tail =>
        s.takeWhile (fun c => c ≠ '\n') ++ c :: stripLineAux marker fuel tail

def stripLineComments (marker s : List Char) : List Char :=
  stripLineAux marker s.length s

/-- The first alternative of the batch-comment pattern: `rem` in any
case followed by at least one whitespace character. -/
def batRemMatch (rest : List Char) : Bool :=
  match rest with
  | r :: e :: m :: x :: _ =>
    r.toLower == 'r' && e.toLower == 'e' && m.toLower == 'm' && isPySpace x
  | _ => false

/-- `re.sub(r"^\s*(rem\s+.*|::.*)$", "", s, flags=re.IGNORECASE |
re.MULTILINE)`: at each anchor, greedy `\s*`, then either `rem\s+.*`
or `::.*` up to the next newline. -/
def stripBatAux : Nat → List Char → List Char
  | 0, s => s
  | fuel + 1, s =>
    if batRemMatch (s.dropWhile isPySpace) then
      match (((s.dropWhile isPySpace).drop 3).dropWhile isPySpace).dropWhile
          (fun c => c ≠ '\n') with
      | [] => []
      | c :: tail => c :: stripBatAux fuel tail
    else if (toL "::").isPrefixOf (s.dropWhile isPySpace) then
      match ((s.dropWhile isPySpace).drop 2).dropWhile (fun c => c ≠ '\n') with
      | [] => []
      | c :: tail => c :: stripBatAux fuel tail
    else
      match s.dropWhile (fun c => c ≠ '\n') with
      | [] => s
      | c :: tail =>
        s.takeWhile (fun c => c ≠ '\n') ++ c :: stripBatAux fuel tail

def stripBatComments (s : List Char) : List Char := stripBatAux s.length s

def jsLikeExts : List (List Char) :=
  [toL ".js", toL ".jsx", toL ".ts", toL ".tsx", toL ".css", toL ".scss"]

def psYmlExts : List (List Char) := [toL ".ps1", toL ".yml", toL ".yaml"]

/-- `clean_code`: per-extension comment stripping followed by
whitespace normalization; `ext` is the file's suffix, lowercased inside
as the source does. -/
def cleanCode (ext : List Char) (content : List Char) : List Char :=
  let e := lowerL ext
  let c1 := if e ∈ jsLikeExts then
      stripLineComments (toL "//") (stripBlockComments content)
    else content
  let c2 := if e = toL ".py" then stripLineComments (toL "#") c1 else c1
  let c3 := if e ∈ psYmlExts then stripLineComments (toL "#") c2 else c2
  let c4 := if e = toL ".bat" then stripBatComments c3 else c3
  let c5 := if e = toL ".json" then
      stripLineComments (toL "//") (stripBlockComments c4)
    else c4
  normalize c5

/-- For extensions outside every comment-stripping set, `clean_code`
is exactly the whitespace normalization. -/
theorem cleanCode_no_comment_strip (ext content : List Char)
    (h1 : lowerL ext ∉ jsLikeExts) (h2 : lowerL ext ≠ toL ".py")
    (h3 : lowerL ext ∉ psYmlExts) (h4 : lowerL ext ≠ toL ".bat")
    (h5 : lowerL ext ≠ toL ".json") :
    cleanCode ext content = normalize content := by
  simp only [cleanCode]
  rw [if_neg h1, if_neg h2, if_neg h3, if_neg h4, if_neg h5]

/-- C1 as stated is false: a file of unrecognized extension is not
returned identical to its input — trailing whitespace is trimmed (and
blank runs collapse, and the ends are stripped). -/
theorem claim_C1_counterexample :
    cleanCode (toL ".txt") (toL "x \ny") ≠ toL "x \ny" := by decide

/-- C1 (amended): for every extension outside the recognized
comment-stripping sets, `clean_code` applies no comment stripping — the
result is exactly the whitespace normalization of the raw text, not the
raw text itself. -/
theorem claim_C1 : ∀ ext content,
    lowerL ext ∉ jsLikeExts → lowerL ext ≠ toL ".py" →
    lowerL ext ∉ psYmlExts → lowerL ext ≠ toL ".bat" →
    lowerL ext ≠ toL ".json" →
    cleanCode ext content = normalize content := by
  intro ext content h1 h2 h3 h4 h5
  exact cleanCode_no_comment_strip ext content h1 h2 h3 h4 h5

/-- A closed instance of C1 (amended) at extension `.txt`. -/
theorem claim_C1_witness :
    cleanCode (toL ".txt") (toL "hello world") =
      normalize (toL "hello world") :=
  claim_C1 (toL ".txt") (toL "hello world") (by decide) (by decide)
    (by decide) (by decide) (by decide)

/-! Properties of the Python string primitives. -/

theorem pyLstrip_head_not_space : ∀ (s : List Char) {c : Char},
    (pyLstrip s).head? = some c → isPySpace c = false
  | [], c, h => by simp [pyLstrip] at h
  | a :: rest, c, h => by
    rw [pyLstrip, List.dropWhile_cons] at h
    by_cases ha : isPySpace a = true
    · rw [if_pos ha] at h
      exact pyLstrip_head_not_space rest h
    · rw [if_neg ha] at h
      simp only [List.head?_cons, Option.some.injEq] at h
      subst h
      exact Bool.eq_false_iff.mpr ha

theorem pyLstrip_eq_self {s : List Char}
    (h : ∀ c, s.head? = some c → isPySpace c = false) : pyLstrip s = s := by
  cases s with
  | nil => rfl
  | cons a rest =>
    rw [pyLstrip, List.dropWhile_cons, if_neg (by simp [h a rfl])]

theorem pyLstrip_idem (s : List Char) : pyLstrip (pyLstrip s) = pyLstrip s :=
  pyLstrip_eq_self (fun _ h => pyLstrip_head_not_space s h)

theorem pyRstrip_getLast_not_space {s : List Char} {c : Char}
    (h : (pyRstrip s).getLast? = some c) : isPySpace c = false := by
  rw [pyRstrip, List.getLast?_reverse] at h
  exact pyLstrip_head_not_space _ h

theorem pyRstrip_eq_self {s : List Char}
    (h : ∀ c, s.getLast? = some c → isPySpace c = false) : pyRstrip s = s := by
  rw [pyRstrip, pyLstrip_eq_self, List.reverse_reverse]
  intro c hc
  rw [List.head?_reverse] at hc
  exact h c hc

theorem pyRstrip_idem (s : List Char) : pyRstrip (pyRstrip s) = pyRstrip s :=
  pyRstrip_eq_self (fun _ h => pyRstrip_getLast_not_space h)

theorem pyRstrip_pref (s : List Char) : pyRstrip s <+: s := by
  have h := List.dropWhile_suffix (l := s.reverse) (p := isPySpace)
  have h2 : ((s.reverse.dropWhile isPySpace).reverse).reverse <:+ s.reverse := by
    rw [List.reverse_reverse]
    exact h
  exact List.reverse_suffix.mp h2

theorem head?_of_pref {α : Type} {l₁ l₂ : List α} {c : α} (hp : l₁ <+: l₂)
    (h : l₁.head? = some c) : l₂.head? = some c := by
  obtain ⟨r, rfl⟩ := hp
  cases l₁ with
  | nil => simp at h
  | cons a rest =>
    simpa using h

theorem pyStrip_head_not_space {s : List Char} {c : Char}
    (h : (pyStrip s).head? = some c) : isPySpace c = false := by
  rw [pyStrip] at h
  exact pyLstrip_head_not_space s (head?_of_pref (pyRstrip_pref _) h)

theorem pyStrip_getLast_not_space {s : List Char} {c : Char}
    (h : (pyStrip s).getLast? = some c) : isPySpace c = false :=
  pyRstrip_getLast_not_space h

theorem pyStrip_eq_self {s : List Char}
    (h1 : ∀ c, s.head? = some c → isPySpace c = false)
    (h2 : ∀ c, s.getLast? = some c → isPySpace c = false) :
    pyStrip s = s := by
  rw [pyStrip, pyLstrip_eq_self h1, pyRstrip_eq_self h2]

theorem pyRstrip_eq_nil_iff {s : List Char} :
    pyRstrip s = [] ↔ ∀ c ∈ s, isPySpace c = true := by
  rw [pyRstrip]
  constructor
  · intro h c hc
    have h2 : s.reverse.dropWhile isPySpace = [] := by
      have := congrArg List.reverse h
      rwa [List.reverse_reverse, List.reverse_nil] at this
    exact List.dropWhile_eq_nil_iff.mp h2 c (List.mem_reverse.mpr hc)
  · intro h
    rw [pyLstrip, List.dropWhile_eq_nil_iff.mpr
      (fun c hc => h c (List.mem_reverse.mp hc))]
    rfl

theorem pyStrip_eq_nil_iff {s : List Char} :
    pyStrip s = [] ↔ ∀ c ∈ s, isPySpace c = true := by
  rw [pyStrip]
  constructor
  · intro h c hc
    by_cases hws : isPySpace c = true
    · exact hws
    · exfalso
      have hmem : c ∈ pyLstrip s := by
        have hdecomp : s.takeWhile isPySpace ++ pyLstrip s = s := by
          rw [pyLstrip]
          exact List.takeWhile_append_dropWhile isPySpace s
        rw [← hdecomp] at hc
        rcases List.mem_append.mp hc with hc | hc
        · exact absurd (List.mem_takeWhile_imp hc) hws
        · exact hc
      have hall := pyRstrip_eq_nil_iff.mp h
      exact hws (hall c hmem)
  · intro h
    have hl : pyLstrip s = [] := by
      rw [pyLstrip]
      exact List.dropWhile_eq_nil_iff.mpr h
    rw [hl]
    rfl

theorem blank_eq_nil {l : List Char} (hfix : pyRstrip l = l)
    (hblank : pyStrip l = []) : l = [] := by
  have hall := pyStrip_eq_nil_iff.mp hblank
  rw [← hfix]
  exact pyRstrip_eq_nil_iff.mpr hall

theorem pyRstrip_subset {l : List Char} : ∀ c ∈ pyRstrip l, c ∈ l := by
  intro c hc
  obtain ⟨r, hr⟩ := pyRstrip_pref l
  rw [← hr]
  exact List.mem_append_left r hc

/-! Line structure of split and joined texts. -/

theorem pySplitlines_newline (rest : List Char) :
    pySplitlines ('\n' :: rest) = [] :: pySplitlines rest := by
  conv_lhs => unfold pySplitlines
  rw [if_neg (by decide), if_pos (by decide)]

theorem pySplitlines_crlf (rest : List Char) :
    pySplitlines ('\r' :: '\n' :: rest) = [] :: pySplitlines rest := by
  conv_lhs => unfold pySplitlines
  simp

theorem pySplitlines_cr {c2 : Char} (h : ¬ c2 = '\n') (rest2 : List Char) :
    pySplitlines ('\r' :: c2 :: rest2) = [] :: pySplitlines (c2 :: rest2) := by
  conv_lhs => unfold pySplitlines
  rw [if_pos rfl]
  split
  · rename_i heq
    exact absurd heq (List.cons_ne_nil _ _)
  · rename_i heq
    exact absurd (List.cons_eq_cons.mp heq).1 h
  · rename_i c3 rest3 hne heq
    obtain ⟨h1, h2⟩ := List.cons_eq_cons.mp heq
    rw [h1, h2]

theorem pySplitlines_cons_break {c : Char} (hcr : ¬ c = '\r')
    (hc : isLineBreak c = true) (rest : List Char) :
    pySplitlines (c :: rest) = [] :: pySplitlines rest := by
  conv_lhs => unfold pySplitlines
  rw [if_neg hcr, if_pos hc]

theorem pySplitlines_cons_not_break {c : Char} (hc : isLineBreak c = false)
    (rest : List Char) :
    pySplitlines (c :: rest) = consHead c (pySplitlines rest) := by
  have hcr : ¬ c = '\r' := by
    intro h
    subst h
    exact absurd hc (by decide)
  conv_lhs => unfold pySplitlines
  rw [if_neg hcr, if_neg (by simp [hc])]

theorem pySplitlines_break_free :
    ∀ s : List Char, ∀ p ∈ pySplitlines s, ∀ c ∈ p, isLineBreak c = false := by
  refine lengthInd (fun s ih => ?_)
  match s with
  | [] => intro p hp; simp [pySplitlines] at hp
  | c :: rest =>
    intro p hp d hd
    by_cases hcr : c = '\r'
    · subst hcr
      match rest with
      | [] =>
        rw [show pySplitlines ['\r'] = [[]] by decide] at hp
        rcases List.mem_cons.mp hp with rfl | hp
        · exact absurd hd (List.not_mem_nil d)
        · exact absurd hp (List.not_mem_nil p)
      | c2 :: rest2 =>
        by_cases hc2 : c2 = '\n'
        · subst hc2
          rw [pySplitlines_crlf] at hp
          rcases List.mem_cons.mp hp with rfl | hp
          · exact absurd hd (List.not_mem_nil d)
          · exact ih rest2 (by simp only [List.length_cons]; omega) p hp d hd
        · rw [pySplitlines_cr hc2] at hp
          rcases List.mem_cons.mp hp with rfl | hp
          · exact absurd hd (List.not_mem_nil d)
          · exact ih (c2 :: rest2) (by simp only [List.length_cons]; omega)
              p hp d hd
    · by_cases hbr : isLineBreak c = true
      · rw [pySplitlines_cons_break hcr hbr] at hp
        rcases List.mem_cons.mp hp with rfl | hp
        · exact absurd hd (List.not_mem_nil d)
        · exact ih rest (by simp only [List.length_cons]; omega) p hp d hd
      · rw [Bool.not_eq_true] at hbr
        rw [pySplitlines_cons_not_break hbr] at hp
        cases hq : pySplitlines rest with
        | nil =>
          rw [hq] at hp
          simp only [consHead] at hp
          rcases List.mem_cons.mp hp with rfl | hp
          · rcases List.mem_cons.mp hd with rfl | hd
            · exact hbr
            · exact absurd hd (List.not_mem_nil d)
          · exact absurd hp (List.not_mem_nil p)
        | cons q qs =>
          rw [hq] at hp
          simp only [consHead] at hp
          rcases List.mem_cons.mp hp with rfl | hp
          · rcases List.mem_cons.mp hd with rfl | hd
            · exact hbr
            · exact ih rest (by simp only [List.length_cons]; omega) q
                (hq ▸ List.mem_cons_self q qs) d hd
          · exact ih rest (by simp only [List.length_cons]; omega) p
              (hq ▸ List.mem_cons_of_mem q hp) d hd

theorem collapseAux_mem :
    ∀ (ls : List (List Char)) (flag : Bool),
      ∀ x ∈ collapseAux flag ls, x = [] ∨ x ∈ ls
  | [], _, x, hx => absurd hx (List.not_mem_nil x)
  | l :: ls, flag, x, hx => by
    unfold collapseAux at hx
    by_cases hb : pyStrip l = []
    · rw [if_pos hb] at hx
      cases flag with
      | true =>
        simp only [if_pos rfl] at hx
        rcases collapseAux_mem ls true x hx with h | h
        · exact Or.inl h
        · exact Or.inr (List.mem_cons_of_mem l h)
      | false =>
        rw [if_neg (by simp)] at hx
        rcases List.mem_cons.mp hx with rfl | hx
        · exact Or.inl rfl
        · rcases collapseAux_mem ls true x hx with h | h
          · exact Or.inl h
          · exact Or.inr (List.mem_cons_of_mem l h)
    · rw [if_neg hb] at hx
      rcases List.mem_cons.mp hx with rfl | hx
      · exact Or.inr (List.mem_cons_self x ls)
      · rcases collapseAux_mem ls false x hx with h | h
        · exact Or.inl h
        · exact Or.inr (List.mem_cons_of_mem l h)

theorem collapseAux_head_true :
    ∀ ls : List (List Char), ∀ x, (collapseAux true ls).head? = some x →
      pyStrip x ≠ []
  | [], x, hx => by simp [collapseAux] at hx
  | l :: ls, x, hx => by
    unfold collapseAux at hx
    by_cases hb : pyStrip l = []
    · rw [if_pos hb, if_pos rfl] at hx
      exact collapseAux_head_true ls x hx
    · rw [if_neg hb] at hx
      simp only [List.head?_cons, Option.some.injEq] at hx
      subst hx
      exact hb

theorem collapseAux_chain :
    ∀ (ls : List (List Char)) (flag : Bool),
      List.Chain' (fun a b => a = [] → b ≠ []) (collapseAux flag ls)
  | [], _ => List.chain'_nil
  | l :: ls, flag => by
    unfold collapseAux
    by_cases hb : pyStrip l = []
    · rw [if_pos hb]
      cases flag with
      | true =>
        simp only [if_pos rfl]
        exact collapseAux_chain ls true
      | false =>
        rw [if_neg (by simp)]
        rw [List.chain'_cons']
        refine ⟨?_, collapseAux_chain ls true⟩
        intro b hb2 _
        intro hbnil
        exact collapseAux_head_true ls b hb2 (by rw [hbnil]; rfl)
    · rw [if_neg hb]
      rw [List.chain'_cons']
      refine ⟨?_, collapseAux_chain ls false⟩
      intro b _ hl
      exact absurd (by rw [hl]; rfl) hb

/-- The pieces produced by the first pass of `normalize` before
joining: newline-free, rstrip-fixed, blank only as `[]`, and never two
adjacent `[]`s. -/
theorem normalize_parts_props (s : List Char) :
    (∀ l ∈ collapseLines ((pySplitlines s).map pyRstrip),
      ∀ c ∈ l, isLineBreak c = false) ∧
    (∀ l ∈ collapseLines ((pySplitlines s).map pyRstrip), pyRstrip l = l) ∧
    (∀ l ∈ collapseLines ((pySplitlines s).map pyRstrip),
      pyStrip l = [] → l = []) ∧
    List.Chain' (fun a b => a = [] → b ≠ [])
      (collapseLines ((pySplitlines s).map pyRstrip)) := by
  have hmem : ∀ l ∈ collapseLines ((pySplitlines s).map pyRstrip),
      l = [] ∨ l ∈ (pySplitlines s).map pyRstrip := fun l hl =>
    collapseAux_mem _ false l hl
  refine ⟨?_, ?_, ?_, collapseAux_chain _ false⟩
  · intro l hl c hc
    rcases hmem l hl with rfl | hl2
    · exact absurd hc (List.not_mem_nil c)
    · obtain ⟨l0, hl0, rfl⟩ := List.mem_map.mp hl2
      exact pySplitlines_break_free s l0 hl0 c (pyRstrip_subset c hc)
  · intro l hl
    rcases hmem l hl with rfl | hl2
    · rfl
    · obtain ⟨l0, _, rfl⟩ := List.mem_map.mp hl2
      exact pyRstrip_idem l0
  · intro l hl hblank
    rcases hmem l hl with rfl | hl2
    · rfl
    · obtain ⟨l0, _, rfl⟩ := List.mem_map.mp hl2
      exact blank_eq_nil (pyRstrip_idem l0) hblank

theorem occursIn_cons_cases {b : List Char} {c : Char} {t : List Char}
    (h : occursIn b (c :: t) = true) :
    b <+: (c :: t) ∨ occursIn b t = true := by
  rw [occursIn_iff] at h
  obtain ⟨l, r, hl⟩ := h
  cases l with
  | nil => exact Or.inl ⟨r, by simpa using hl.symm⟩
  | cons x l' =>
    right
    rw [occursIn_iff]
    refine ⟨l', r, ?_⟩
    have h2 : c = x ∧ t = l' ++ (b ++ r) := by simpa using hl
    rw [h2.2, List.append_assoc]

theorem mem_of_occursIn {b s : List Char} {c : Char} (hc : c ∈ b)
    (h : occursIn b s = true) : c ∈ s := by
  rw [occursIn_iff] at h
  obtain ⟨l, r, rfl⟩ := h
  exact List.mem_append_left r (List.mem_append_right l hc)

theorem pyStrip_infixOf (s : List Char) : pyStrip s <:+: s := by
  rw [pyStrip]
  exact (pyRstrip_pref (pyLstrip s)).isInfix.trans
    (List.dropWhile_suffix isPySpace).isInfix

theorem joinWith_head_nl {q : List Char} {ps : List (List Char)}
    (hq : ∀ c ∈ q, isLineBreak c = false)
    (h : (joinWith (toL "\n") (q :: ps)).head? = some '\n') :
    q = [] ∧ ps ≠ [] := by
  cases q with
  | cons a q' =>
    exfalso
    have hha : (joinWith (toL "\n") ((a :: q') :: ps)).head? = some a := by
      cases ps with
      | nil => rfl
      | cons p2 ps' => rfl
    rw [hha] at h
    injection h with h
    subst h
    exact absurd (hq _ (List.mem_cons_self _ _)) (by decide)
  | nil =>
    cases ps with
    | nil => simp [joinWith] at h
    | cons p2 ps' => exact ⟨rfl, List.cons_ne_nil p2 ps'⟩

theorem joinWith_nil_cons (p2 : List Char) (ps' : List (List Char)) :
    joinWith (toL "\n") ([] :: p2 :: ps') =
      '\n' :: joinWith (toL "\n") (p2 :: ps') := rfl

theorem not_two_nl_prefix :
    ∀ parts : List (List Char),
      (∀ p ∈ parts, ∀ c ∈ p, isLineBreak c = false) →
      List.Chain' (fun a b => a = [] → b ≠ []) parts →
      ¬ (toL "\n\n" <+: joinWith (toL "\n") parts)
  | [], _, _, hpre => by
    exact absurd hpre.length_le (by decide)
  | q :: ps, hbf, hch, hpre => by
    have hhead : (joinWith (toL "\n") (q :: ps)).head? = some '\n' :=
      head?_of_pref hpre rfl
    obtain ⟨rfl, hps⟩ :=
      joinWith_head_nl (hbf q (List.mem_cons_self q ps)) hhead
    match ps, hps with
    | p2 :: ps', _ =>
      rw [joinWith_nil_cons] at hpre
      rw [show toL "\n\n" = '\n' :: toL "\n" from rfl] at hpre
      have hpre2 : toL "\n" <+: joinWith (toL "\n") (p2 :: ps') :=
        (List.cons_prefix_cons.mp hpre).2
      have hhead2 : (joinWith (toL "\n") (p2 :: ps')).head? = some '\n' :=
        head?_of_pref hpre2 rfl
      obtain ⟨rfl, _⟩ := joinWith_head_nl
        (hbf p2 (List.mem_cons_of_mem [] (List.mem_cons_self p2 ps'))) hhead2
      rw [List.chain'_cons] at hch
      exact (hch.1 rfl) rfl

theorem no_triple_join :
    ∀ parts : List (List Char),
      (∀ p ∈ parts, ∀ c ∈ p, isLineBreak c = false) →
      List.Chain' (fun a b => a = [] → b ≠ []) parts →
      occursIn (toL "\n\n\n") (joinWith (toL "\n") parts) = false
  | [], _, _ => by
    rw [show joinWith (toL "\n") [] = [] from rfl]
    exact occursIn_nil_right (by decide)
  | [p], hbf, _ => by
    by_contra hc
    rw [Bool.not_eq_false] at hc
    have hm : '\n' ∈ p := mem_of_occursIn (b := toL "\n\n\n") (by decide)
      (by simpa [joinWith] using hc)
    exact absurd (hbf p (List.mem_cons_self p []) '\n' hm) (by decide)
  | p :: q :: ps, hbf, hch => by
    by_contra hcon
    rw [Bool.not_eq_false] at hcon
    rw [joinWith_cons, List.append_assoc] at hcon
    rw [show toL "\n" ++ joinWith (toL "\n") (q :: ps) =
      '\n' :: joinWith (toL "\n") (q :: ps) from rfl] at hcon
    rcases occursIn_append_cases hcon with h | h | h
    · exact absurd (hbf p (List.mem_cons_self p _) '\n'
        (mem_of_occursIn (b := toL "\n\n\n") (by decide) h)) (by decide)
    · rcases occursIn_cons_cases h with h2 | h2
      · have hpre : toL "\n\n" <+: joinWith (toL "\n") (q :: ps) := by
          rw [show toL "\n\n\n" = '\n' :: toL "\n\n" from rfl] at h2
          exact (List.cons_prefix_cons.mp h2).2
        exact not_two_nl_prefix (q :: ps)
          (fun r hr => hbf r (List.mem_cons_of_mem p hr))
          ((List.chain'_cons'.mp hch).2) hpre
      · have hr := no_triple_join (q :: ps)
          (fun r hr => hbf r (List.mem_cons_of_mem p hr))
          ((List.chain'_cons'.mp hch).2)
        rw [hr] at h2
        simp at h2
    · obtain ⟨i, hi1, hi3, hsuf, _⟩ := h
      have hlen : i < 3 := by simpa using hi3
      have hmem : '\n' ∈ (toL "\n\n\n").take i := by
        have hi : i = 1 ∨ i = 2 := by omega
        rcases hi with rfl | rfl
        · decide
        · decide
      exact absurd (hbf p (List.mem_cons_self p _) '\n' (hsuf.subset hmem))
        (by decide)

theorem normalize_no_triple (s : List Char) :
    occursIn (toL "\n\n\n") (normalize s) = false := by
  obtain ⟨hbf, _, _, hch⟩ := normalize_parts_props s
  exact not_occursIn_mono (pyStrip_infixOf _) (no_triple_join _ hbf hch)

theorem cleanCode_eq_normalize (ext content : List Char) :
    ∃ t, cleanCode ext content = normalize t := ⟨_, rfl⟩

/-- C5: for every extension and input, the normalized output contains
no run of two consecutive blank lines (no `"\n\n\n"` substring), starts
and ends with a non-whitespace character — so leading and trailing
blank lines are gone — and empty input yields the empty string; a file
with three consecutive blank lines keeps exactly one blank line at that
position. -/
theorem claim_C5 :
    (∀ ext content,
      occursIn (toL "\n\n\n") (cleanCode ext content) = false ∧
      (∀ c, (cleanCode ext content).head? = some c → isPySpace c = false) ∧
      (∀ c, (cleanCode ext content).getLast? = some c → isPySpace c = false) ∧
      cleanCode ext [] = []) ∧
    cleanCode (toL ".txt") (toL "a\n\n\n\nb") = toL "a\n\nb" := by
  constructor
  · intro ext content
    obtain ⟨t, ht⟩ := cleanCode_eq_normalize ext content
    rw [ht]
    refine ⟨normalize_no_triple t, ?_, ?_, ?_⟩
    · intro c hc
      rw [normalize] at hc
      exact pyStrip_head_not_space hc
    · intro c hc
      rw [normalize] at hc
      exact pyStrip_getLast_not_space hc
    · simp only [cleanCode]
      have e1 : (if lowerL ext ∈ jsLikeExts then
          stripLineComments (toL "//") (stripBlockComments []) else
          ([] : List Char)) = [] := by
        split <;> rfl
      have e2 : (if lowerL ext = toL ".py" then
          stripLineComments (toL "#") [] else ([] : List Char)) = [] := by
        split <;> rfl
      have e3 : (if lowerL ext ∈ psYmlExts then
          stripLineComments (toL "#") [] else ([] : List Char)) = [] := by
        split <;> rfl
      have e4 : (if lowerL ext = toL ".bat" then
          stripBatComments [] else ([] : List Char)) = [] := by
        split <;> rfl
      have e5 : (if lowerL ext = toL ".json" then
          stripLineComments (toL "//") (stripBlockComments []) else
          ([] : List Char)) = [] := by
        split <;> rfl
      rw [e1, e2, e3, e4, e5]
      rfl
  · decide

/-! Idempotence of the whitespace normalization. -/

theorem head?_dropWhile_not {α : Type} (p : α → Bool) :
    ∀ (l : List α) {x : α}, (l.dropWhile p).head? = some x → p x = false
  | [], x, h => by simp at h
  | a :: rest, x, h => by
    rw [List.dropWhile_cons] at h
    by_cases ha : p a = true
    · rw [if_pos ha] at h
      exact head?_dropWhile_not p rest h
    · rw [if_neg ha] at h
      simp only [List.head?_cons, Option.some.injEq] at h
      subst h
      exact Bool.eq_false_iff.mpr ha

theorem dropWhile_eq_self_of_head {α : Type} (p : α → Bool) {l : List α}
    (h : ∀ x, l.head? = some x → p x = false) : l.dropWhile p = l := by
  cases l with
  | nil => rfl
  | cons a rest =>
    rw [List.dropWhile_cons, if_neg (by simp [h a rfl])]

theorem getLast?_of_suffix {l₁ l₂ : List Char} (hs : l₁ <:+ l₂)
    (hne : l₁ ≠ []) : l₂.getLast? = l₁.getLast? := by
  obtain ⟨u, rfl⟩ := hs
  rw [List.getLast?_append]
  cases h : l₁.getLast? with
  | none => exact absurd (List.getLast?_eq_none_iff.mp h) hne
  | some x => rfl

theorem getLast?_append_right {α : Type} {l l' : List α} (h : l' ≠ []) :
    (l ++ l').getLast? = l'.getLast? := by
  rw [List.getLast?_append]
  cases hx : l'.getLast? with
  | none => exact absurd (List.getLast?_eq_none_iff.mp hx) h
  | some x => rfl

theorem pyLstrip_cons_ws {c : Char} (hc : isPySpace c = true) (t : List Char) :
    pyLstrip (c :: t) = pyLstrip t := by
  rw [pyLstrip, List.dropWhile_cons, if_pos hc]
  rfl

theorem pyLstrip_append_of_ne {p : List Char} (z : List Char)
    (h : pyLstrip p ≠ []) : pyLstrip (p ++ z) = pyLstrip p ++ z := by
  rw [pyLstrip, List.dropWhile_append,
    if_neg (by simp only [List.isEmpty_iff]; exact h)]
  rfl

theorem pyLstrip_ne_nil_of_not_blank {p : List Char} (hp : pyStrip p ≠ []) :
    pyLstrip p ≠ [] := by
  intro h0
  exact hp (by rw [pyStrip, h0]; rfl)

/-- Drop the leading run of empty lines, as `str.strip` does through
the joining newlines. -/
def lstripFirst : List (List Char) → List (List Char)
  | [] => []
  | p :: ps => pyLstrip p :: ps

/-- Drop trailing empty lines. -/
def trimTrail (D : List (List Char)) : List (List Char) :=
  (D.reverse.dropWhile (· == [])).reverse

/-- Left-stripping a newline-join: the leading blank lines disappear
and the first surviving line loses its leading whitespace. -/
theorem lstrip_join :
    ∀ C : List (List Char),
      (∀ l ∈ C, pyStrip l = [] → l = []) →
      pyLstrip (joinWith (toL "\n") C) =
        joinWith (toL "\n") (lstripFirst (C.dropWhile (· == [])))
  | [], _ => rfl
  | [p], hbl => by
    by_cases hp : p = []
    · subst hp
      rfl
    · rw [show joinWith (toL "\n") [p] = p from rfl, List.dropWhile_cons,
        if_neg (by simp [hp])]
      rfl
  | p :: q :: ps, hbl => by
    by_cases hp : p = []
    · subst hp
      rw [joinWith_nil_cons, pyLstrip_cons_ws (by decide)]
      rw [show List.dropWhile (fun x => x == []) (([] : List Char) :: q :: ps) =
        List.dropWhile (fun x => x == []) (q :: ps) by
          rw [List.dropWhile_cons, if_pos (by rfl)]]
      exact lstrip_join (q :: ps) (fun l hl => hbl l (List.mem_cons_of_mem [] hl))
    · have hps : pyStrip p ≠ [] := fun h0 =>
        hp (hbl p (List.mem_cons_self p _) h0)
      have hnot := pyLstrip_ne_nil_of_not_blank hps
      rw [joinWith_cons, List.append_assoc, pyLstrip_append_of_ne _ hnot,
        List.dropWhile_cons, if_neg (by simp [hp])]
      rw [show lstripFirst (p :: q :: ps) = pyLstrip p :: q :: ps from rfl,
        joinWith_cons, List.append_assoc]

theorem joinWith_getLast_char :
    ∀ (D : List (List Char)) (e : List Char), D.getLast? = some e → e ≠ [] →
      (joinWith (toL "\n") D).getLast? = e.getLast?
  | [], e, h, _ => by simp at h
  | [p], e, h, _ => by
    simp only [List.getLast?_singleton, Option.some.injEq] at h
    subst h
    rfl
  | p :: q :: ps, e, h, he => by
    rw [List.getLast?_cons_cons] at h
    have hj := joinWith_getLast_char (q :: ps) e h he
    have hne : joinWith (toL "\n") (q :: ps) ≠ [] := by
      intro h0
      rw [h0] at hj
      obtain ⟨c, hc⟩ := Option.isSome_iff_exists.mp
        (List.getLast?_isSome.mpr he)
      rw [hc] at hj
      simp at hj
    rw [joinWith_cons, getLast?_append_right hne, hj]

theorem pyRstrip_snoc_ws {c : Char} (hc : isPySpace c = true) (x : List Char) :
    pyRstrip (x ++ [c]) = pyRstrip x := by
  rw [pyRstrip, pyRstrip, List.reverse_append,
    show ([c] : List Char).reverse ++ x.reverse = c :: x.reverse by simp,
    pyLstrip_cons_ws hc]

theorem join_snoc_empty :
    ∀ ps : List (List Char), ps ≠ [] →
      joinWith (toL "\n") (ps ++ [[]]) = joinWith (toL "\n") ps ++ ['\n']
  | [], h => absurd rfl h
  | [p], _ => by
    rw [show [p] ++ [([] : List Char)] = [p, []] from rfl, joinWith_cons,
      show joinWith (toL "\n") [([] : List Char)] = [] from rfl,
      List.append_nil]
    rfl
  | p :: q :: ps, _ => by
    rw [show (p :: q :: ps) ++ [[]] = p :: ((q :: ps) ++ [[]]) from rfl]
    rw [show (q :: ps) ++ [([] : List Char)] = q :: (ps ++ [[]]) from rfl]
    rw [joinWith_cons]
    rw [show q :: (ps ++ [([] : List Char)]) = (q :: ps) ++ [[]] from rfl]
    rw [join_snoc_empty (q :: ps) (List.cons_ne_nil q ps), joinWith_cons,
      List.append_assoc, List.append_assoc, List.append_assoc]

theorem rstrip_fixed_getLast {e : List Char} (hfix : pyRstrip e = e) :
    ∀ c, e.getLast? = some c → isPySpace c = false := by
  intro c hc
  rw [← hfix] at hc
  exact pyRstrip_getLast_not_space hc

/-- Right-stripping a newline-join of rstrip-fixed lines with no two
adjacent empties: the (at most one) trailing empty line disappears. -/
theorem rstrip_join (D : List (List Char))
    (hfix : ∀ l ∈ D, pyRstrip l = l)
    (hch : List.Chain' (fun a b => a = [] → b ≠ []) D) :
    pyRstrip (joinWith (toL "\n") D) = joinWith (toL "\n") (trimTrail D) := by
  cases hlast : D.getLast? with
  | none =>
    have hD : D = [] := List.getLast?_eq_none_iff.mp hlast
    subst hD
    rfl
  | some e =>
    have hD : D ≠ [] := by
      intro h
      rw [h] at hlast
      simp at hlast
    by_cases he : e = []
    · subst he
      have hsplit : D = D.dropLast ++ [[]] :=
        (List.dropLast_append_getLast? [] hlast).symm
      cases hdl : D.dropLast with
      | nil =>
        have hD1 : D = [[]] := by rw [hsplit, hdl]; rfl
        rw [hD1]
        rfl
      | cons E0 Es =>
        have hEne : D.dropLast ≠ [] := by rw [hdl]; exact List.cons_ne_nil _ _
        have hchsplit := hch
        rw [hsplit, List.chain'_append] at hchsplit
        obtain ⟨hch1, _, hrel⟩ := hchsplit
        obtain ⟨eL, heL⟩ := Option.isSome_iff_exists.mp
          (List.getLast?_isSome.mpr hEne)
        have heLne : eL ≠ [] := by
          intro h0
          exact (hrel eL (by rw [heL]; rfl) [] rfl) h0 rfl
        have heLD : eL ∈ D := by
          rw [hsplit]
          exact List.mem_append_left _ (List.mem_of_getLast?_eq_some heL)
        have hfixjoin : pyRstrip (joinWith (toL "\n") D.dropLast) =
            joinWith (toL "\n") D.dropLast := by
          apply pyRstrip_eq_self
          intro c hc
          rw [joinWith_getLast_char D.dropLast eL heL heLne] at hc
          exact rstrip_fixed_getLast (hfix eL heLD) c hc
        have htrim : trimTrail D = D.dropLast := by
          unfold trimTrail
          conv_lhs => rw [hsplit]
          rw [List.reverse_append,
            show ([([] : List Char)] : List (List Char)).reverse ++
              D.dropLast.reverse = ([] : List Char) :: D.dropLast.reverse
              by simp,
            List.dropWhile_cons, if_pos (by rfl),
            dropWhile_eq_self_of_head _ (by
              intro x hx
              rw [List.head?_reverse, heL] at hx
              injection hx with hx
              subst hx
              simp [heLne]),
            List.reverse_reverse]
        conv_lhs => rw [hsplit]
        rw [join_snoc_empty _ hEne, pyRstrip_snoc_ws (by decide), hfixjoin,
          htrim]
    · have hfixjoin : pyRstrip (joinWith (toL "\n") D) =
          joinWith (toL "\n") D := by
        apply pyRstrip_eq_self
        intro c hc
        rw [joinWith_getLast_char D e hlast he] at hc
        exact rstrip_fixed_getLast (hfix e (List.mem_of_getLast?_eq_some hlast))
          c hc
      have htrim : trimTrail D = D := by
        unfold trimTrail
        rw [dropWhile_eq_self_of_head _ (by
          intro x hx
          rw [List.head?_reverse, hlast] at hx
          injection hx with hx
          subst hx
          simp [he]), List.reverse_reverse]
      rw [hfixjoin, htrim]

/-- Stripping a newline-join of well-formed pieces drops the leading
empty pieces, left-strips the first survivor, and drops the trailing
empty pieces. -/
theorem strip_join (C : List (List Char))
    (hbl : ∀ l ∈ C, pyStrip l = [] → l = [])
    (hfix : ∀ l ∈ C, pyRstrip l = l)
    (hch : List.Chain' (fun a b => a = [] → b ≠ []) C) :
    pyStrip (joinWith (toL "\n") C) =
      joinWith (toL "\n")
        (trimTrail (lstripFirst (C.dropWhile (· == [])))) := by
  rw [pyStrip, lstrip_join C hbl]
  cases hdw : C.dropWhile (· == []) with
  | nil => rfl
  | cons p ps =>
    have hsuff : (p :: ps) <:+ C := by
      rw [← hdw]; exact List.dropWhile_suffix _
    have hmem : ∀ l ∈ p :: ps, l ∈ C := fun l hl => hsuff.subset hl
    have hpne : p ≠ [] := by
      have hh : (C.dropWhile (· == [])).head? = some p := by rw [hdw]; rfl
      have h2 := head?_dropWhile_not _ C hh
      simpa using h2
    have hpsne : pyStrip p ≠ [] := fun h0 =>
      hpne (hbl p (hmem p (List.mem_cons_self p ps)) h0)
    have hplne : pyLstrip p ≠ [] := pyLstrip_ne_nil_of_not_blank hpsne
    have hplfix : pyRstrip (pyLstrip p) = pyLstrip p := by
      apply pyRstrip_eq_self
      intro c hc
      have hsfx : pyLstrip p <:+ p := List.dropWhile_suffix isPySpace
      rw [← getLast?_of_suffix hsfx hplne] at hc
      exact rstrip_fixed_getLast (hfix p (hmem p (List.mem_cons_self p ps))) c hc
    have hfixD : ∀ l ∈ lstripFirst (p :: ps), pyRstrip l = l := by
      intro l hl
      rw [show lstripFirst (p :: ps) = pyLstrip p :: ps from rfl] at hl
      rcases List.mem_cons.mp hl with rfl | hl2
      · exact hplfix
      · exact hfix l (hmem l (List.mem_cons_of_mem p hl2))
    have hchD : List.Chain' (fun a b => a = [] → b ≠ [])
        (lstripFirst (p :: ps)) := by
      have hchY := hch.suffix hsuff
      rw [List.chain'_cons'] at hchY
      rw [show lstripFirst (p :: ps) = pyLstrip p :: ps from rfl,
        List.chain'_cons']
      exact ⟨fun b _ h0 => absurd h0 hplne, hchY.2⟩
    exact rstrip_join (lstripFirst (p :: ps)) hfixD hchD

theorem joinWith_head_of_ne {d : List Char} (ds : List (List Char))
    (hd : d ≠ []) :
    (joinWith (toL "\n") (d :: ds)).head? = d.head? := by
  cases ds with
  | nil => rfl
  | cons q ps =>
    rw [joinWith_cons, List.append_assoc]
    cases d with
    | nil => exact absurd rfl hd
    | cons c t => rfl

theorem pySplitlines_single : ∀ x : List Char, x ≠ [] →
    (∀ c ∈ x, isLineBreak c = false) → pySplitlines x = [x]
  | [], h, _ => absurd rfl h
  | [c], _, hbf => by
    rw [pySplitlines_cons_not_break (hbf c (List.mem_cons_self c []))]
    rfl
  | c :: c2 :: t, _, hbf => by
    rw [pySplitlines_cons_not_break (hbf c (List.mem_cons_self c _)),
      pySplitlines_single (c2 :: t) (List.cons_ne_nil _ _)
        (fun d hd => hbf d (List.mem_cons_of_mem c hd))]
    rfl

theorem pySplitlines_append_nl : ∀ x y : List Char,
    (∀ c ∈ x, isLineBreak c = false) →
    pySplitlines (x ++ '\n' :: y) = x :: pySplitlines y
  | [], y, _ => by rw [List.nil_append, pySplitlines_newline]
  | c :: x', y, hbf => by
    rw [List.cons_append,
      pySplitlines_cons_not_break (hbf c (List.mem_cons_self c _)),
      pySplitlines_append_nl x' y
        (fun d hd => hbf d (List.mem_cons_of_mem c hd))]
    rfl

/-- Splitting undoes joining when the pieces are newline-free and the
last piece is nonempty. -/
theorem split_join : ∀ D : List (List Char),
    (∀ l ∈ D, ∀ c ∈ l, isLineBreak c = false) →
    D.getLast? ≠ some [] →
    pySplitlines (joinWith (toL "\n") D) = D
  | [], _, _ => rfl
  | [d], hbf, hlast => by
    have hdne : d ≠ [] := by
      intro h0
      exact hlast (by rw [h0]; rfl)
    rw [show joinWith (toL "\n") [d] = d from rfl]
    exact pySplitlines_single d hdne (hbf d (List.mem_cons_self d []))
  | d :: d2 :: ds, hbf, hlast => by
    rw [joinWith_cons, List.append_assoc,
      show toL "\n" ++ joinWith (toL "\n") (d2 :: ds) =
        '\n' :: joinWith (toL "\n") (d2 :: ds) from rfl,
      pySplitlines_append_nl d _ (hbf d (List.mem_cons_self d _)),
      split_join (d2 :: ds) (fun l hl => hbf l (List.mem_cons_of_mem d hl))
        (by rw [List.getLast?_cons_cons] at hlast; exact hlast)]

theorem map_fixed {f : List Char → List Char} :
    ∀ ls : List (List Char), (∀ l ∈ ls, f l = l) → ls.map f = ls
  | [], _ => rfl
  | l :: ls, h => by
    rw [List.map_cons, h l (List.mem_cons_self l ls),
      map_fixed ls (fun x hx => h x (List.mem_cons_of_mem l hx))]

/-- The blank-collapsing pass is the identity on lists whose blank
lines are literally empty and never adjacent. -/
theorem collapseAux_fixed : ∀ (ls : List (List Char)) (flag : Bool),
    (∀ l ∈ ls, pyStrip l = [] → l = []) →
    List.Chain' (fun a b => a = [] → b ≠ []) ls →
    (flag = true → ls.head? ≠ some []) →
    collapseAux flag ls = ls
  | [], _, _, _, _ => rfl
  | l :: ls, flag, hbl, hch, hflag => by
    unfold collapseAux
    by_cases hb : pyStrip l = []
    · have hl0 : l = [] := hbl l (List.mem_cons_self l ls) hb
      cases flag with
      | true =>
        exact absurd (show (l :: ls).head? = some [] by rw [hl0]; rfl)
          (hflag rfl)
      | false =>
        rw [if_pos hb, if_neg (by simp)]
        rw [hl0]
        congr 1
        refine collapseAux_fixed ls true
          (fun x hx => hbl x (List.mem_cons_of_mem l hx))
          (List.chain'_cons'.mp hch).2 ?_
        intro _ hcon
        exact (List.chain'_cons'.mp hch).1 [] (Option.mem_def.mpr hcon) hl0 rfl
    · rw [if_neg hb]
      congr 1
      refine collapseAux_fixed ls false
        (fun x hx => hbl x (List.mem_cons_of_mem l hx))
        (List.chain'_cons'.mp hch).2 ?_
      intro h
      exact absurd h Bool.false_ne_true

theorem trimTrail_prefix (X : List (List Char)) : trimTrail X <+: X := by
  have h : (trimTrail X).reverse <:+ X.reverse := by
    rw [trimTrail, List.reverse_reverse]
    exact List.dropWhile_suffix _
  exact List.reverse_suffix.mp h

theorem trimTrail_getLast_ne (X : List (List Char)) :
    (trimTrail X).getLast? ≠ some [] := by
  intro h
  rw [trimTrail, List.getLast?_reverse] at h
  have h2 := head?_dropWhile_not _ X.reverse h
  simp at h2

/-- The list of pieces underlying a stripped join inherits all the
structural properties and in addition has a nonempty, space-free-headed
first piece and a nonempty last piece. -/
theorem stripped_props (C D : List (List Char))
    (hD : D = trimTrail (lstripFirst (C.dropWhile (· == []))))
    (hbf : ∀ l ∈ C, ∀ c ∈ l, isLineBreak c = false)
    (hfix : ∀ l ∈ C, pyRstrip l = l)
    (hbl : ∀ l ∈ C, pyStrip l = [] → l = [])
    (hch : List.Chain' (fun a b => a = [] → b ≠ []) C) :
    (∀ l ∈ D, ∀ c ∈ l, isLineBreak c = false) ∧
    (∀ l ∈ D, pyRstrip l = l) ∧
    (∀ l ∈ D, pyStrip l = [] → l = []) ∧
    List.Chain' (fun a b => a = [] → b ≠ []) D ∧
    D.getLast? ≠ some [] ∧
    (∀ x, D.head? = some x →
      x ≠ [] ∧ ∀ c, x.head? = some c → isPySpace c = false) := by
  subst hD
  cases hdw : C.dropWhile (· == []) with
  | nil =>
    rw [show trimTrail (lstripFirst ([] : List (List Char))) = [] from rfl]
    exact ⟨fun l hl => absurd hl (List.not_mem_nil l),
           fun l hl => absurd hl (List.not_mem_nil l),
           fun l hl => absurd hl (List.not_mem_nil l),
           List.chain'_nil, by simp, fun x hx => by simp at hx⟩
  | cons p ps =>
    have hsuff : (p :: ps) <:+ C := by
      rw [← hdw]; exact List.dropWhile_suffix _
    have hmem : ∀ l ∈ p :: ps, l ∈ C := fun l hl => hsuff.subset hl
    have hpne : p ≠ [] := by
      have hh : (C.dropWhile (· == [])).head? = some p := by rw [hdw]; rfl
      have h2 := head?_dropWhile_not _ C hh
      simpa using h2
    have hpsne : pyStrip p ≠ [] := fun h0 =>
      hpne (hbl p (hmem p (List.mem_cons_self p ps)) h0)
    have hplne : pyLstrip p ≠ [] := pyLstrip_ne_nil_of_not_blank hpsne
    have hplfix : pyRstrip (pyLstrip p) = pyLstrip p := by
      apply pyRstrip_eq_self
      intro c hc
      have hsfx : pyLstrip p <:+ p := List.dropWhile_suffix isPySpace
      rw [← getLast?_of_suffix hsfx hplne] at hc
      exact rstrip_fixed_getLast (hfix p (hmem p (List.mem_cons_self p ps))) c hc
    have hZw : lstripFirst (p :: ps) = pyLstrip p :: ps := rfl
    have hmemZ : ∀ l ∈ lstripFirst (p :: ps), l = pyLstrip p ∨ l ∈ C := by
      intro l hl
      rw [hZw] at hl
      rcases List.mem_cons.mp hl with rfl | hl2
      · exact Or.inl rfl
      · exact Or.inr (hmem l (List.mem_cons_of_mem p hl2))
    have hbfZ : ∀ l ∈ lstripFirst (p :: ps), ∀ c ∈ l, isLineBreak c = false := by
      intro l hl c hc
      rcases hmemZ l hl with rfl | hl2
      · have hsfx : pyLstrip p <:+ p := List.dropWhile_suffix isPySpace
        exact hbf p (hmem p (List.mem_cons_self p ps)) c (hsfx.subset hc)
      · exact hbf l hl2 c hc
    have hfixZ : ∀ l ∈ lstripFirst (p :: ps), pyRstrip l = l := by
      intro l hl
      rcases hmemZ l hl with rfl | hl2
      · exact hplfix
      · exact hfix l hl2
    have hblZ : ∀ l ∈ lstripFirst (p :: ps), pyStrip l = [] → l = [] := by
      intro l hl h0
      rcases hmemZ l hl with rfl | hl2
      · exfalso
        have h1 : pyStrip (pyLstrip p) = pyStrip p := by
          show pyRstrip (pyLstrip (pyLstrip p)) = pyStrip p
          rw [pyLstrip_idem]
          rfl
        rw [h1] at h0
        exact hpsne h0
      · exact hbl l hl2 h0
    have hchZ : List.Chain' (fun a b => a = [] → b ≠ [])
        (lstripFirst (p :: ps)) := by
      have hchY := hch.suffix hsuff
      rw [List.chain'_cons'] at hchY
      rw [hZw, List.chain'_cons']
      exact ⟨fun b _ h0 => absurd h0 hplne, hchY.2⟩
    have hheadZ : (lstripFirst (p :: ps)).head? = some (pyLstrip p) := by
      rw [hZw]; rfl
    have hpre : trimTrail (lstripFirst (p :: ps)) <+: lstripFirst (p :: ps) :=
      trimTrail_prefix _
    have hmemD : ∀ l ∈ trimTrail (lstripFirst (p :: ps)),
        l ∈ lstripFirst (p :: ps) := fun l hl => hpre.subset hl
    refine ⟨fun l hl => hbfZ l (hmemD l hl),
            fun l hl => hfixZ l (hmemD l hl),
            fun l hl => hblZ l (hmemD l hl),
            hchZ.prefix hpre,
            trimTrail_getLast_ne _,
            ?_⟩
    intro x hx
    have hxZ : (lstripFirst (p :: ps)).head? = some x := head?_of_pref hpre hx
    rw [hheadZ] at hxZ
    injection hxZ with hxZ
    subst hxZ
    exact ⟨hplne, fun c hc => pyLstrip_head_not_space p hc⟩

/-- The whitespace-normalization tail of `clean_code` is idempotent. -/
theorem normalize_idem (s : List Char) :
    normalize (normalize s) = normalize s := by
  obtain ⟨hbf, hfix, hbl, hch⟩ := normalize_parts_props s
  obtain ⟨D, hDdef⟩ : ∃ D, D = trimTrail (lstripFirst
      ((collapseLines ((pySplitlines s).map pyRstrip)).dropWhile (· == []))) :=
    ⟨_, rfl⟩
  have hjoin : normalize s = joinWith (toL "\n") D := by
    rw [hDdef]
    exact strip_join _ hbl hfix hch
  obtain ⟨hbfD, hfixD, hblD, hchD, hlastD, hheadD⟩ :=
    stripped_props (collapseLines ((pySplitlines s).map pyRstrip)) D hDdef
      hbf hfix hbl hch
  rw [hjoin, normalize, split_join D hbfD hlastD, map_fixed D hfixD,
    show collapseLines D = D from
      collapseAux_fixed D false hblD hchD (fun h => absurd h Bool.false_ne_true)]
  cases D with
  | nil => rfl
  | cons d0 ds =>
    have hhd := hheadD d0 rfl
    apply pyStrip_eq_self
    · intro c hc
      rw [joinWith_head_of_ne ds hhd.1] at hc
      exact hhd.2 c hc
    · intro c hc
      obtain ⟨e, he⟩ := Option.isSome_iff_exists.mp
        (List.getLast?_isSome.mpr (List.cons_ne_nil d0 ds))
      have hene : e ≠ [] := fun h0 => hlastD (h0 ▸ he)
      rw [joinWith_getLast_char _ e he hene] at hc
      exact rstrip_fixed_getLast (hfixD e (List.mem_of_getLast?_eq_some he)) c hc

/-- C2 as stated is false: for a comment-stripping extension such as
`.js`, the first pass can manufacture a new block comment (here the
line-comment pass deletes `//*x*/` up to the end of the line, gluing
`/*` from the remainder), which only the second pass removes. -/
theorem claim_C2_counterexample :
    cleanCode (toL ".js") (cleanCode (toL ".js") (toL "a //*x*/* b */ c")) ≠
      cleanCode (toL ".js") (toL "a //*x*/* b */ c") := by decide

/-- C2 (amended): the whitespace-normalization stage of `clean_code`
(trailing-space trimming, blank-line collapsing, end trimming) is
idempotent — on every `clean_code` output a second normalization
changes nothing — and for every extension outside the recognized
comment-stripping sets `clean_code` itself is idempotent.  Full
idempotence for comment-stripping extensions is refuted by
`claim_C2_counterexample`. -/
theorem claim_C2 : ∀ ext content,
    normalize (cleanCode ext content) = cleanCode ext content ∧
    (lowerL ext ∉ jsLikeExts → lowerL ext ≠ toL ".py" →
     lowerL ext ∉ psYmlExts → lowerL ext ≠ toL ".bat" →
     lowerL ext ≠ toL ".json" →
     cleanCode ext (cleanCode ext content) = cleanCode ext content) := by
  intro ext content
  constructor
  · obtain ⟨t, ht⟩ := cleanCode_eq_normalize ext content
    rw [ht, normalize_idem]
  · intro h1 h2 h3 h4 h5
    rw [cleanCode_no_comment_strip ext content h1 h2 h3 h4 h5,
      cleanCode_no_comment_strip ext (normalize content) h1 h2 h3 h4 h5,
      normalize_idem]

/-- A closed instance of C2 (amended) at extension `.txt` on an input
with a blank-line run. -/
theorem claim_C2_witness :
    normalize (cleanCode (toL ".txt") (toL "a\n\n\n\nb")) =
        cleanCode (toL ".txt") (toL "a\n\n\n\nb") ∧
    cleanCode (toL ".txt") (cleanCode (toL ".txt") (toL "a\n\n\n\nb")) =
        cleanCode (toL ".txt") (toL "a\n\n\n\nb") :=
  ⟨(claim_C2 (toL ".txt") (toL "a\n\n\n\nb")).1,
   (claim_C2 (toL ".txt") (toL "a\n\n\n\nb")).2 (by decide) (by decide)
     (by decide) (by decide) (by decide)⟩

/-- A closed instance of C5: on `" a b "` the cleaned output starts
with `a` and ends with `b`, both non-whitespace. -/
theorem claim_C5_witness :
    isPySpace 'a' = false ∧ isPySpace 'b' = false :=
  ⟨(claim_C5.1 (toL ".txt") (toL " a b ")).2.1 'a' (by decide),
   (claim_C5.1 (toL ".txt") (toL " a b ")).2.2.1 'b' (by decide)⟩

end OLMS
